import Mathlib

/-
Verification development for the godot-pack binary structure codec
(src/src/pack.rs).  The Rust source is shallowly embedded: the format-string
parser (PackingDescriptor::sequence_from), the pack engine (Pack::pack_impl)
and the unpack engine (Pack::unpack_impl) become executable Lean functions
over lists of byte values (Nat, each < 256 in well-formed buffers).

Platform assumptions, fixed by the spec's observed-platform notes:
  * 64-bit little-endian target (Endianness::NATIVE = LittleEndian,
    usize is 64 bits wide, size_of::<std::ffi::c_int>() = 4).
  * Rust release-profile semantics: usize arithmetic wraps modulo 2^64.
    The parser's running_length accumulator can actually reach the wrap
    (a 20-digit length literal), so it is modelled with an explicit
    mod 2^64.  The offset counter advances by at most 65535 per format
    character, so wrapping it would need a format string of at least
    2^48 characters, far beyond any string Godot can hand over; offset
    is therefore modelled as an unbounded Nat.
-/

set_option maxHeartbeats 1000000
instance exceptDecidableEq {ε α : Type} [DecidableEq ε] [DecidableEq α] :
    DecidableEq (Except ε α) := fun a b =>
  match a, b with
  | .ok x, .ok y =>
      if h : x = y then .isTrue (by rw [h]) else .isFalse (by simp [h])
  | .error x, .error y =>
      if h : x = y then .isTrue (by rw [h]) else .isFalse (by simp [h])
  | .ok _, .error _ => .isFalse (by simp)
  | .error _, .ok _ => .isFalse (by simp)

/-- Modulus of the target's usize arithmetic (64-bit target, release
profile wrapping semantics). -/
def USIZE : Nat := 2 ^ 64

/-- Rust's Endianness enum from pack.rs. -/
inductive Endianness
  | littleEndian
  | bigEndian
deriving DecidableEq

/-- Endianness::NATIVE on the little-endian target. -/
def Endianness.NATIVE : Endianness := .littleEndian

/-- Endianness::NETWORK (always big-endian). -/
def Endianness.NETWORK : Endianness := .bigEndian

/-- Rust's FieldType enum from pack.rs (constructor names follow the source;
FieldType.string is the 's' text field, FieldType.character the 'c' byte
field). -/
inductive FieldType
  | string
  | character
  | bool
  | char
  | unsignedChar
  | short
  | unsignedShort
  | int
  | unsignedInt
  | long
  | unsignedLong
  | longLong
  | unsignedLongLong
  | float
  | double
deriving DecidableEq

/-- Rust's FieldDescriptior struct (the source's spelling), pack.rs lines
38-43. -/
structure FieldDescriptior where
  ty : FieldType
  length : Nat
  offset : Nat
deriving DecidableEq

/-- Rust's PackingDescriptor struct, pack.rs lines 45-50. -/
structure PackingDescriptor where
  fields : List FieldDescriptior
  size : Nat
  endianness : Endianness
deriving DecidableEq

/-- running_length.clamp(1, u16::MAX as _) from the 's' and 'x' arms. -/
def clampLen (n : Nat) : Nat := min (max n 1) 65535

/-- One emission of the scanner: a materialized field or an offset-consuming
padding run.  The Rust source pushes FieldDescriptior values directly and
handles 'x' by only advancing the offset; PackItem records the emission
itself so that layout facts (offsets as prefix sums over fields AND padding)
can be stated. -/
inductive PackItem
  | fieldItem (ty : FieldType) (length : Nat)
  | padItem (length : Nat)
deriving DecidableEq

/-- Byte length of an emission. -/
def itemLength : PackItem → Nat
  | .fieldItem _ l => l
  | .padItem l => l

/-- Effect of one non-digit format character: each arm corresponds 1:1 to an
arm of the match in sequence_from (pack.rs lines 69-211).  The argument r is
the current running_length.  Unrecognized characters are the source's
`_ => return Err(())` arm. -/
inductive TokenEff
  | setOrder (e : Endianness)
  | emit (it : PackItem)
deriving DecidableEq

def tokenEff? (r : Nat) (c : Char) : Except Unit TokenEff :=
  match c with
  | '@' => .ok (.setOrder Endianness.NATIVE)
  | '=' => .ok (.setOrder Endianness.NATIVE)
  | '<' => .ok (.setOrder .littleEndian)
  | '>' => .ok (.setOrder .bigEndian)
  | '!' => .ok (.setOrder Endianness.NETWORK)
  | 's' => .ok (.emit (.fieldItem .string (clampLen r)))
  | 'x' => .ok (.emit (.padItem (clampLen r)))
  | '?' => .ok (.emit (.fieldItem .bool 1))
  | 'c' => .ok (.emit (.fieldItem .character 1))
  | 'b' => .ok (.emit (.fieldItem .char 1))
  | 'B' => .ok (.emit (.fieldItem .unsignedChar 1))
  | 'h' => .ok (.emit (.fieldItem .short 2))
  | 'H' => .ok (.emit (.fieldItem .unsignedShort 2))
  | 'i' => .ok (.emit (.fieldItem .int 4))
  | 'I' => .ok (.emit (.fieldItem .unsignedInt 4))
  | 'l' => .ok (.emit (.fieldItem .long 4))
  | 'L' => .ok (.emit (.fieldItem .unsignedLong 4))
  | 'q' => .ok (.emit (.fieldItem .longLong 8))
  | 'Q' => .ok (.emit (.fieldItem .unsignedLongLong 8))
  | 'f' => .ok (.emit (.fieldItem .float 4))
  | 'd' => .ok (.emit (.fieldItem .double 8))
  | _ => .error ()

/-- Mutable scan state of sequence_from: the active byte order, the fields
pushed so far, the digit accumulator and the running offset. -/
structure ScanState where
  order : Endianness
  fields : List FieldDescriptior
  runningLength : Nat
  offset : Nat
deriving DecidableEq

/-- The character loop of sequence_from (pack.rs lines 65-214): digits
update running_length (usize, wrapping); every other character is consumed
by tokenEff? and then running_length resets to 0.  A fieldItem emission is
the source's fields.push(FieldDescriptior \x7b ty, length, offset:
post_increment(length) \x7d); a padItem only advances the offset. -/
def scanAux : List Char → ScanState → Except Unit ScanState
  | [], st => .ok st
  | c :: cs, st =>
    if c.isDigit then
      scanAux cs { st with runningLength := (st.runningLength * 10 + (c.toNat - 48)) % USIZE }
    else
      match tokenEff? st.runningLength c with
      | .error e => .error e
      | .ok (.setOrder o) => scanAux cs { st with order := o, runningLength := 0 }
      | .ok (.emit (.fieldItem ty l)) =>
          scanAux cs { st with
            fields := st.fields ++ [⟨ty, l, st.offset⟩],
            runningLength := 0,
            offset := st.offset + l }
      | .ok (.emit (.padItem l)) =>
          scanAux cs { st with runningLength := 0, offset := st.offset + l }

/-- PackingDescriptor::sequence_from (pack.rs lines 53-221). -/
def sequence_from (s : String) : Except Unit PackingDescriptor :=
  match scanAux s.data ⟨Endianness.NATIVE, [], 0, 0⟩ with
  | .error e => .error e
  | .ok st => .ok ⟨st.fields, st.offset, st.order⟩

/-- The same scan recording emissions (fields and padding runs) instead of
assigning offsets; used to state the layout claims. -/
structure ItemScanState where
  order : Endianness
  items : List PackItem
  runningLength : Nat
deriving DecidableEq

def scanItemsAux : List Char → ItemScanState → Except Unit ItemScanState
  | [], st => .ok st
  | c :: cs, st =>
    if c.isDigit then
      scanItemsAux cs { st with runningLength := (st.runningLength * 10 + (c.toNat - 48)) % USIZE }
    else
      match tokenEff? st.runningLength c with
      | .error e => .error e
      | .ok (.setOrder o) => scanItemsAux cs { st with order := o, runningLength := 0 }
      | .ok (.emit it) => scanItemsAux cs { st with items := st.items ++ [it], runningLength := 0 }

def scanItems (s : String) : Except Unit (List PackItem) :=
  match scanItemsAux s.data ⟨Endianness.NATIVE, [], 0⟩ with
  | .error e => .error e
  | .ok st => .ok st.items

/-- Offset assignment over an emission list: every field's offset is the sum
of the lengths of ALL preceding emissions (fields and padding alike);
padding is dropped from the output. -/
def assignOffsets : List PackItem → Nat → List FieldDescriptior
  | [], _ => []
  | .fieldItem ty l :: rest, off => ⟨ty, l, off⟩ :: assignOffsets rest (off + l)
  | .padItem l :: rest, off => assignOffsets rest (off + l)

/-- Total byte length of an emission list. -/
def totalLen (items : List PackItem) : Nat := (items.map itemLength).sum

/-- The byte-order directive denoted by a format character, written from the
claim's words: '@'/'=' are Native, '<' little, '>' big, '!' network. -/
def directiveOrder? (c : Char) : Option Endianness :=
  match c with
  | '@' => some Endianness.NATIVE
  | '=' => some Endianness.NATIVE
  | '<' => some .littleEndian
  | '>' => some .bigEndian
  | '!' => some Endianness.NETWORK
  | _ => none

/-- The last order directive appearing anywhere in the string, Native when
none appears (the claim's specification of the recorded byte order). -/
def lastOrderSpec (s : String) : Endianness :=
  (s.data.reverse.findSome? directiveOrder?).getD Endianness.NATIVE

/-- Classification of the fixed-width numeric field kinds by the Rust
primitive the pack/unpack match arms use (pack.rs lines 327-356 and
408-444): widths in bytes, FieldType.long and FieldType.int both i32,
FieldType.unsignedInt and FieldType.unsignedLong both u32. -/
inductive NumClass
  | signed (w : Nat)
  | unsigned (w : Nat)
  | float32
  | float64
deriving DecidableEq

def numClassOf : FieldType → Option NumClass
  | .char => some (.signed 1)
  | .unsignedChar => some (.unsigned 1)
  | .short => some (.signed 2)
  | .unsignedShort => some (.unsigned 2)
  | .int => some (.signed 4)
  | .unsignedInt => some (.unsigned 4)
  | .long => some (.signed 4)
  | .unsignedLong => some (.unsigned 4)
  | .longLong => some (.signed 8)
  | .unsignedLongLong => some (.unsigned 8)
  | .float => some .float32
  | .double => some .float64
  | _ => none

def widthOf : NumClass → Nat
  | .signed w => w
  | .unsigned w => w
  | .float32 => 4
  | .float64 => 8

/-- Modelled from the spec: the host's dynamically-typed value (Godot's
Variant restricted to the kinds the codec touches): nil, bool, 64-bit int,
64-bit float (carried as its IEEE-754 binary64 bit pattern, a Nat below
2^64), and text. -/
inductive Variant
  | nil
  | vBool (b : Bool)
  | vInt (i : Int)
  | vFloat (bits : Nat)
  | vString (s : String)
deriving DecidableEq

/-- IEEE-754 widening of a binary32 bit pattern to binary64 — the exact,
total conversion performed when an unpacked f32 is handed back to the host
as a 64-bit float.  Subnormal binary32 values are renormalized. -/
def f64ofF32 (w : Nat) : Nat :=
  let s := (w / 2 ^ 31) % 2
  let e := (w / 2 ^ 23) % 2 ^ 8
  let m := w % 2 ^ 23
  if e = 255 then s * 2 ^ 63 + 2047 * 2 ^ 52 + m * 2 ^ 29
  else if 1 ≤ e then s * 2 ^ 63 + (e + 896) * 2 ^ 52 + m * 2 ^ 29
  else if m = 0 then s * 2 ^ 63
  else s * 2 ^ 63 + (Nat.log2 m + 874) * 2 ^ 52 + (m - 2 ^ Nat.log2 m) * 2 ^ (52 - Nat.log2 m)

/-- Modelled from the spec: narrowing of a binary64 bit pattern to binary32
(the conversion a float value undergoes when packed into an 'f' field).  It
is exact on every binary64 value that is exactly representable in binary32;
on inexact inputs the model truncates the mantissa (the spec's claims never
observe the rounded value of an inexact narrowing, only that the narrowing
succeeds). -/
def toF32relaxed (b : Nat) : Nat :=
  let s := (b / 2 ^ 63) % 2
  let E := (b / 2 ^ 52) % 2 ^ 11
  let M := b % 2 ^ 52
  if E = 2047 then s * 2 ^ 31 + 255 * 2 ^ 23 + M / 2 ^ 29
  else if 1150 < E then s * 2 ^ 31 + 255 * 2 ^ 23
  else if 897 ≤ E then s * 2 ^ 31 + (E - 896) * 2 ^ 23 + M / 2 ^ 29
  else if 874 ≤ E then s * 2 ^ 31 + (2 ^ 52 + M) / 2 ^ (926 - E)
  else s * 2 ^ 31

/-- Modelled from the spec: the binary64 bit pattern of a 64-bit integer
(the int-to-float numeric relaxation; exact for magnitudes below 2^53,
truncating above, which no claim observes). -/
def intToF64bits (i : Int) : Nat :=
  if i = 0 then 0
  else
    let s : Nat := if i < 0 then 1 else 0
    let n := i.natAbs
    let k := Nat.log2 n
    if k ≤ 52 then s * 2 ^ 63 + (k + 1023) * 2 ^ 52 + (n - 2 ^ k) * 2 ^ (52 - k)
    else s * 2 ^ 63 + (k + 1023) * 2 ^ 52 + (n / 2 ^ (k - 52) - 2 ^ 52)

/-- Modelled from the spec: truncation of a finite binary64 value toward
zero to an integer (the float-to-int numeric relaxation); NaN and infinity
do not convert. -/
def f64TruncToInt? (b : Nat) : Option Int :=
  let s := (b / 2 ^ 63) % 2
  let E := (b / 2 ^ 52) % 2 ^ 11
  let M := b % 2 ^ 52
  if E = 2047 then none
  else
    let mag : Nat :=
      if E = 0 then 0
      else if E ≤ 1074 then (2 ^ 52 + M) / 2 ^ (1075 - E)
      else (2 ^ 52 + M) * 2 ^ (E - 1075)
    some (if s = 1 then -(mag : Int) else (mag : Int))

/-- Modelled from the spec: try_to_relaxed to an integer — int values pass
through, float values truncate toward zero, text and the rest are not
numerically coercible ("packing a non-numeric text value into an i field
fails"). -/
def coerceToInt? : Variant → Option Int
  | .vInt i => some i
  | .vFloat b => f64TruncToInt? b
  | _ => none

/-- try_to_relaxed::<iN>: numeric relaxation followed by the signed range
check of the target width. -/
def coerceSigned? (w : Nat) (v : Variant) : Option Int :=
  (coerceToInt? v).bind fun i =>
    if -((256 ^ w : Int) / 2) ≤ i ∧ i < (256 ^ w : Int) / 2 then some i else none

/-- try_to_relaxed::<uN>: numeric relaxation followed by the unsigned range
check of the target width. -/
def coerceUnsigned? (w : Nat) (v : Variant) : Option Int :=
  (coerceToInt? v).bind fun i =>
    if 0 ≤ i ∧ i < (256 ^ w : Int) then some i else none

/-- try_to_relaxed::<f32>: float and int values convert (by narrowing),
text and the rest do not. -/
def coerceF32? : Variant → Option Nat
  | .vFloat b => some (toF32relaxed b)
  | .vInt i => some (toF32relaxed (intToF64bits i))
  | _ => none

/-- try_to_relaxed::<f64>. -/
def coerceF64? : Variant → Option Nat
  | .vFloat b => some b
  | .vInt i => some (intToF64bits i)
  | _ => none

/-- Modelled from the spec: try_to_relaxed::<bool> — bool values pass
through, numeric values booleanize, text is not boolean-coercible (a Bool
field paired with a non-coercible value "remains zero (no error)"). -/
def coerceBool? : Variant → Option Bool
  | .vBool b => some b
  | .vInt i => some (i != 0)
  | .vFloat b => some (b % 2 ^ 63 != 0)
  | _ => none

/-- Modelled from the spec: Variant::to_string.  Text, bool and int values
render as in GDScript; the exact decimal rendering of floats is not
reproduced (no claim observes it), only that it is some fixed nonempty
text. -/
def variantToString : Variant → String
  | .nil => "<null>"
  | .vBool b => if b then "true" else "false"
  | .vInt i => toString i
  | .vFloat bits => "float:" ++ toString bits
  | .vString s => s

/-- UTF-8 encoding of a Unicode code point (the byte sequence Rust's
str::as_bytes exposes for each char). -/
def utf8Bytes (c : Nat) : List Nat :=
  if c < 0x80 then [c]
  else if c < 0x800 then [0xC0 + c / 64, 0x80 + c % 64]
  else if c < 0x10000 then [0xE0 + c / 4096, 0x80 + c / 64 % 64, 0x80 + c % 64]
  else [0xF0 + c / 262144, 0x80 + c / 4096 % 64, 0x80 + c / 64 % 64, 0x80 + c % 64]

/-- The UTF-8 bytes of a string (string.as_bytes() in the source). -/
def stringUTF8 (s : String) : List Nat :=
  s.data.foldr (fun c acc => utf8Bytes c.toNat ++ acc) []

/-- Strict UTF-8 validation and decoding, as performed by Rust's
str::from_utf8: rejects misplaced continuation bytes, overlong encodings,
surrogate code points and values above U+10FFFF. -/
def utf8DecodeAux : List Nat → List Char → Option (List Char)
  | [], acc => some acc.reverse
  | b :: rest, acc =>
    if b < 0x80 then utf8DecodeAux rest (Char.ofNat b :: acc)
    else if b < 0xC2 then none
    else if b < 0xE0 then
      match rest with
      | b1 :: rest2 =>
        if 0x80 ≤ b1 ∧ b1 < 0xC0 then
          utf8DecodeAux rest2 (Char.ofNat ((b - 0xC0) * 64 + (b1 - 0x80)) :: acc)
        else none
      | [] => none
    else if b < 0xF0 then
      match rest with
      | b1 :: b2 :: rest2 =>
        let lo1 := if b = 0xE0 then 0xA0 else 0x80
        let hi1 := if b = 0xED then 0xA0 else 0xC0
        if lo1 ≤ b1 ∧ b1 < hi1 ∧ 0x80 ≤ b2 ∧ b2 < 0xC0 then
          utf8DecodeAux rest2
            (Char.ofNat ((b - 0xE0) * 4096 + (b1 - 0x80) * 64 + (b2 - 0x80)) :: acc)
        else none
      | _ => none
    else if b < 0xF5 then
      match rest with
      | b1 :: b2 :: b3 :: rest2 =>
        let lo1 := if b = 0xF0 then 0x90 else 0x80
        let hi1 := if b = 0xF4 then 0x90 else 0xC0
        if lo1 ≤ b1 ∧ b1 < hi1 ∧ 0x80 ≤ b2 ∧ b2 < 0xC0 ∧ 0x80 ≤ b3 ∧ b3 < 0xC0 then
          utf8DecodeAux rest2
            (Char.ofNat
              ((b - 0xF0) * 262144 + (b1 - 0x80) * 4096 + (b2 - 0x80) * 64 + (b3 - 0x80)) :: acc)
        else none
      | _ => none
    else none

def utf8Decode? (bs : List Nat) : Option String :=
  (utf8DecodeAux bs []).map String.mk

/-- Little-endian byte decomposition of a natural number into w bytes
(to_le_bytes on the value reduced modulo 256^w). -/
def natBytesLE : Nat → Nat → List Nat
  | 0, _ => []
  | w + 1, n => n % 256 :: natBytesLE w (n / 256)

/-- Little-endian recomposition (from_le_bytes). -/
def natFromBytesLE : List Nat → Nat
  | [] => 0
  | b :: bs => b + 256 * natFromBytesLE bs

/-- to_be_bytes is to_le_bytes reversed; descriptor.endianness picks the
order (pack.rs lines 288-295 and 376-379). -/
def orderBytes (e : Endianness) (bs : List Nat) : List Nat :=
  match e with
  | .littleEndian => bs
  | .bigEndian => bs.reverse

/-- Two's-complement reading of a w-byte unsigned value, as performed by
iN::from_le_bytes / from_be_bytes. -/
def decodeSigned (w : Nat) (n : Nat) : Int :=
  if n < 256 ^ w / 2 then (n : Int) else (n : Int) - (256 ^ w : Int)

/-- The bytes the pack engine writes for one fixed-width numeric field:
coercion to the target numeric type followed by the to_be_bytes/to_le_bytes
encoding; none when the coercion fails. -/
def packNumBytes? (c : NumClass) (e : Endianness) (v : Variant) : Option (List Nat) :=
  match c with
  | .signed w =>
      (coerceSigned? w v).map fun i => orderBytes e (natBytesLE w (i % (256 ^ w : Int)).toNat)
  | .unsigned w =>
      (coerceUnsigned? w v).map fun i => orderBytes e (natBytesLE w i.toNat)
  | .float32 => (coerceF32? v).map fun bits => orderBytes e (natBytesLE 4 bits)
  | .float64 => (coerceF64? v).map fun bits => orderBytes e (natBytesLE 8 bits)

/-- The variant the unpack engine reconstructs from one fixed-width numeric
field's bytes (read_variant_from! in pack.rs): from_be_bytes/from_le_bytes
then to_variant. -/
def readNum (c : NumClass) (e : Endianness) (bs : List Nat) : Variant :=
  let n := natFromBytesLE (orderBytes e bs)
  match c with
  | .signed w => .vInt (decodeSigned w n)
  | .unsigned _ => .vInt (n : Int)
  | .float32 => .vFloat (f64ofF32 n)
  | .float64 => .vFloat n

/-- slice[bounds] of len bytes starting at off (out-of-range parts are
simply absent; all descriptors produced by sequence_from keep every access
in range, which the well-formedness lemmas below establish). -/
def bufExtract (l : List Nat) (off len : Nat) : List Nat := (l.drop off).take len

/-- copy_from_slice of bs into the buffer at offset off. -/
def bufWrite (buf : List Nat) (off : Nat) (bs : List Nat) : List Nat :=
  buf.take off ++ bs ++ buf.drop (off + bs.length)

/-- Pack-time error (the source's Err(()) from pack_impl, named as in the
spec: the only pack-time failure is a numeric write conversion failure). -/
inductive PackError
  | writeConversionFailure
deriving DecidableEq

/-- One iteration of the pack loop (pack.rs lines 307-357): the per-field
write into the pre-zeroed buffer.  Text converts the value to text and
copies at most field.length of its UTF-8 bytes; Character writes the first
byte of the text form when there is one; Bool writes 1/0 when the value is
boolean-coercible; every fixed-width numeric kind writes its coerced
encoding or aborts the pack with the conversion failure. -/
def packFieldWrite (e : Endianness) (buf : List Nat) (v : Variant)
    (fd : FieldDescriptior) : Except PackError (List Nat) :=
  match fd.ty with
  | .string =>
      let bytes := stringUTF8 (variantToString v)
      let m := min bytes.length fd.length
      .ok (bufWrite buf fd.offset (bytes.take m))
  | .character =>
      match (stringUTF8 (variantToString v)).head? with
      | some b => .ok (bufWrite buf fd.offset [b])
      | none => .ok buf
  | .bool =>
      match coerceBool? v with
      | some b => .ok (bufWrite buf fd.offset [if b then 1 else 0])
      | none => .ok buf
  | ty =>
      match numClassOf ty with
      | some c =>
          match packNumBytes? c e v with
          | some bs => .ok (bufWrite buf fd.offset bs)
          | none => .error .writeConversionFailure
      | none => .ok buf

/-- The zip-driven pack loop: values are paired with fields until either
runs out (extra values ignored, missing values leave fields zero-filled). -/
def packPairs (e : Endianness) : List (Variant × FieldDescriptior) → List Nat →
    Except PackError (List Nat)
  | [], buf => .ok buf
  | (v, fd) :: rest, buf =>
      match packFieldWrite e buf v fd with
      | .ok buf2 => packPairs e rest buf2
      | .error err => .error err

/-- Pack::pack_impl (pack.rs lines 284-362): allocate descriptor.size zero
bytes, then run the zip loop. -/
def pack_impl (d : PackingDescriptor) (vs : List Variant) : Except PackError (List Nat) :=
  packPairs d.endianness (vs.zip d.fields) (List.replicate d.size 0)

/-- Unpack-time error value (the source's Err(()) from unpack_impl, named
as in the spec: the only error unpack_impl returns is the size check's). -/
inductive UnpackError
  | sizeMismatch
deriving DecidableEq

/-- Outcome of unpack_impl.  The source's String arm calls
str::from_utf8(..).unwrap(), which on invalid UTF-8 does not produce an
Err(()) but aborts by panicking; panics are therefore a distinct outcome. -/
inductive UnpackOutcome
  | ok (values : List Variant)
  | err (e : UnpackError)
  | panicked
deriving DecidableEq

/-- The per-field read of the unpack loop (pack.rs lines 389-445); none
models the panic of the String arm's unwrap on invalid UTF-8. -/
def readField (e : Endianness) (data : List Nat) (fd : FieldDescriptior) :
    Option Variant :=
  match fd.ty with
  | .string => (utf8Decode? (bufExtract data fd.offset fd.length)).map Variant.vString
  | .character => some (.vString (String.mk [Char.ofNat (data.getD fd.offset 0)]))
  | .bool => some (.vBool (data.getD fd.offset 0 != 0))
  | ty =>
      match numClassOf ty with
      | some c => some (readNum c e (bufExtract data fd.offset fd.length))
      | none => none

/-- The unpack loop over the descriptor's fields, in order. -/
def unpackFields (e : Endianness) (data : List Nat) :
    List FieldDescriptior → Option (List Variant)
  | [] => some []
  | fd :: rest =>
      match readField e data fd with
      | some v => (unpackFields e data rest).map (v :: ·)
      | none => none

/-- Pack::unpack_impl (pack.rs lines 371-448): the size check runs first
and is the only Err; afterwards the loop either completes or panics. -/
def unpack_impl (d : PackingDescriptor) (data : List Nat) : UnpackOutcome :=
  if data.length ≠ d.size then .err .sizeMismatch
  else
    match unpackFields d.endianness data d.fields with
    | some vs => .ok vs
    | none => .panicked

/-- Length consistency of a pushed field: every match arm of sequence_from
hard-codes the byte length of its kind (numeric kinds get their primitive's
width, Bool and Character one byte, Text at least one byte from the
clamp). -/
def lenOK (ty : FieldType) (l : Nat) : Prop :=
  match numClassOf ty with
  | some c => l = widthOf c
  | none => 1 ≤ l

/-- Well-formed descriptor: every field range fits in the total size, the
ranges appear in order without overlap, and lengths are consistent with
the field kinds. -/
structure WF (d : PackingDescriptor) : Prop where
  fit : ∀ f ∈ d.fields, f.offset + f.length ≤ d.size
  disj : d.fields.Pairwise (fun a b => a.offset + a.length ≤ b.offset)
  pos : ∀ f ∈ d.fields, 1 ≤ f.length
  lc : ∀ f ∈ d.fields, lenOK f.ty f.length

/-- Scan-time invariant: everything pushed so far lies below the running
offset, in order. -/
def ScanInv (st : ScanState) : Prop :=
  (∀ f ∈ st.fields, f.offset + f.length ≤ st.offset) ∧
  st.fields.Pairwise (fun a b => a.offset + a.length ≤ b.offset) ∧
  (∀ f ∈ st.fields, 1 ≤ f.length ∧ lenOK f.ty f.length)

/-- Decimal value of a digit run (the mathematical value, before any usize
wrap). -/
def digitsVal (ds : List Char) : Nat :=
  ds.foldl (fun a c => a * 10 + (c.toNat - 48)) 0

def shiftFields (off : Nat) (fs : List FieldDescriptior) : List FieldDescriptior :=
  fs.map fun f => ⟨f.ty, f.length, off + f.offset⟩

def isFieldItem : PackItem → Bool
  | .fieldItem _ _ => true
  | .padItem _ => false

/-- Pairs on which the pack loop writes nothing: a Bool field with a value
that is not boolean-coercible, or a Character field whose text form has no
bytes. -/
def skipsWrite (p : Variant × FieldDescriptior) : Prop :=
  (p.2.ty = .bool ∧ coerceBool? p.1 = none) ∨
  (p.2.ty = .character ∧ (stringUTF8 (variantToString p.1)).head? = none)

/-- The fixed-width numeric tokens, together with the order directives that
the round-trip claim also admits. -/
def numericTokens : List Char :=
  ['b', 'B', 'h', 'H', 'i', 'I', 'l', 'L', 'q', 'Q', 'f', 'd', '@', '=', '<', '>', '!']

/-- Exact representability of a dynamic value in a numeric field type:
integers within the target's range for the integer kinds, floats whose
binary64 pattern survives the narrowing round trip for 'f', every binary64
pattern for 'd'. -/
def representableN (c : NumClass) (v : Variant) : Bool :=
  match c, v with
  | .signed w, .vInt i => decide (-((256 ^ w : Int) / 2) ≤ i ∧ i < (256 ^ w : Int) / 2)
  | .unsigned w, .vInt i => decide (0 ≤ i ∧ i < (256 ^ w : Int))
  | .float32, .vFloat b => decide (b < 2 ^ 64 ∧ f64ofF32 (toF32relaxed b) = b)
  | .float64, .vFloat b => decide (b < 2 ^ 64)
  | _, _ => false

def representableB (ty : FieldType) (v : Variant) : Bool :=
  match numClassOf ty with
  | some c => representableN c v
  | none => false

/-- A format of a single 20-digit length (2^64) followed by 's': the usize
accumulator wraps to 0, the clamp then raises it to 1. -/
def bigLenFormat : String := "18446744073709551616s"

def descBigInt : PackingDescriptor := ⟨[⟨.int, 4, 0⟩], 4, .bigEndian⟩

def descLitInt : PackingDescriptor := ⟨[⟨.int, 4, 0⟩], 4, .littleEndian⟩

/-- Descriptor for the format "s": a single one-byte Text field. -/
def descTextOne : PackingDescriptor := ⟨[⟨.string, 1, 0⟩], 1, .littleEndian⟩

def descTwoIntBE : PackingDescriptor := ⟨[⟨.int, 4, 0⟩, ⟨.int, 4, 4⟩], 8, .bigEndian⟩

def descShortByte : PackingDescriptor := ⟨[⟨.short, 2, 0⟩, ⟨.unsignedChar, 1, 2⟩], 3, .bigEndian⟩

def descBoolInt : PackingDescriptor := ⟨[⟨.bool, 1, 0⟩, ⟨.int, 4, 1⟩], 5, .littleEndian⟩

def vsBoolOnly : List Variant := [.vString "x"]

def descPadInt : PackingDescriptor := ⟨[⟨.int, 4, 2⟩], 6, .littleEndian⟩

def descChar : PackingDescriptor := ⟨[⟨.character, 1, 0⟩], 1, .littleEndian⟩

theorem natBytesLE_length (w n : Nat) : (natBytesLE w n).length = w := by
  induction w generalizing n with
  | zero => rfl
  | succ w ih => simp [natBytesLE, ih]

theorem orderBytes_length (e : Endianness) (bs : List Nat) :
    (orderBytes e bs).length = bs.length := by
  cases e <;> simp [orderBytes]

theorem orderBytes_orderBytes (e : Endianness) (bs : List Nat) :
    orderBytes e (orderBytes e bs) = bs := by
  cases e <;> simp [orderBytes]

theorem natFromBytesLE_natBytesLE (w n : Nat) :
    natFromBytesLE (natBytesLE w n) = n % 256 ^ w := by
  induction w generalizing n with
  | zero => simp [natBytesLE, natFromBytesLE, Nat.mod_one]
  | succ w ih =>
    simp only [natBytesLE, natFromBytesLE, ih]
    rw [pow_succ', Nat.mod_mul]

theorem emod_toNat_lt (i : Int) (w : Nat) : (i % (256 ^ w : Int)).toNat < 256 ^ w := by
  have hP : ((256 ^ w : Nat) : Int) = (256 ^ w : Int) := by push_cast; ring
  have hpos : (0 : Int) < (256 ^ w : Int) := by positivity
  have h1 := Int.emod_nonneg i (ne_of_gt hpos)
  have h2 := Int.emod_lt_of_pos i hpos
  omega

theorem decodeSigned_encode (w : Nat) (hw : 1 ≤ w) (i : Int)
    (h1 : -((256 ^ w : Int) / 2) ≤ i) (h2 : i < (256 ^ w : Int) / 2) :
    decodeSigned w (i % (256 ^ w : Int)).toNat = i := by
  have hP : ((256 ^ w : Nat) : Int) = (256 ^ w : Int) := by push_cast; ring
  have hpos : (0 : Int) < (256 ^ w : Int) := by positivity
  have hm1 := Int.emod_nonneg i (ne_of_gt hpos)
  have hm2 := Int.emod_lt_of_pos i hpos
  have hsplit : i % (256 ^ w : Int) = if 0 ≤ i then i else i + (256 ^ w : Int) := by
    split
    · exact Int.emod_eq_of_lt (by assumption) (by omega)
    · have key : (i + (256 ^ w : Int)) % (256 ^ w : Int) = i % (256 ^ w : Int) := by
        have h := Int.add_mul_emod_self_left (a := i) (b := (256 ^ w : Int)) (c := 1)
        rw [mul_one] at h
        exact h
      rw [← key]
      exact Int.emod_eq_of_lt (by omega) (by omega)
  unfold decodeSigned
  split <;> omega

theorem decodeUnsigned_encode (w : Nat) (i : Int) (h1 : 0 ≤ i)
    (h2 : i < (256 ^ w : Int)) : (((i.toNat % 256 ^ w : Nat)) : Int) = i := by
  have hP : ((256 ^ w : Nat) : Int) = (256 ^ w : Int) := by push_cast; ring
  have : i.toNat < 256 ^ w := by omega
  rw [Nat.mod_eq_of_lt this]
  omega

theorem bufWrite_getElem? (buf bs : List Nat) (off k : Nat)
    (h : off + bs.length ≤ buf.length) :
    (bufWrite buf off bs)[k]? =
      if k < off then buf[k]? else if k < off + bs.length then bs[k - off]? else buf[k]? := by
  unfold bufWrite
  rw [List.append_assoc]
  have hto : (buf.take off).length = off := by simp; omega
  rcases Nat.lt_or_ge k off with h1 | h1
  · rw [List.getElem?_append_left (by rw [hto]; exact h1)]
    rw [List.getElem?_take]
    simp [h1]
  · rw [List.getElem?_append_right (by rw [hto]; exact h1), hto]
    rcases Nat.lt_or_ge (k - off) bs.length with h2 | h2
    · rw [List.getElem?_append_left h2]
      have hi1 : ¬ k < off := by omega
      have hi2 : k < off + bs.length := by omega
      simp [hi1, hi2]
    · rw [List.getElem?_append_right h2, List.getElem?_drop]
      have hif1 : ¬ k < off := by omega
      have hif2 : ¬ k < off + bs.length := by omega
      simp only [hif1, if_false, hif2]
      congr 1
      omega

theorem bufWrite_length (buf bs : List Nat) (off : Nat)
    (h : off + bs.length ≤ buf.length) :
    (bufWrite buf off bs).length = buf.length := by
  simp [bufWrite]
  omega

theorem bufExtract_getElem? (l : List Nat) (off len k : Nat) :
    (bufExtract l off len)[k]? = if k < len then l[off + k]? else none := by
  unfold bufExtract
  rw [List.getElem?_take]
  split
  · rw [List.getElem?_drop]
  · rfl

theorem bufExtract_length (l : List Nat) (off len : Nat) (h : off + len ≤ l.length) :
    (bufExtract l off len).length = len := by
  simp [bufExtract]
  omega

theorem bufExtract_write_self (buf bs : List Nat) (off : Nat)
    (h : off + bs.length ≤ buf.length) :
    bufExtract (bufWrite buf off bs) off bs.length = bs := by
  apply List.ext_getElem?
  intro k
  rw [bufExtract_getElem?, bufWrite_getElem? _ _ _ _ h]
  rcases Nat.lt_or_ge k bs.length with h1 | h1
  · have hif1 : ¬ off + k < off := by omega
    have hif2 : off + k < off + bs.length := by omega
    simp only [h1, if_true, hif1, if_false, hif2]
    congr 1
    omega
  · have : ¬ k < bs.length := by omega
    simp only [this, if_false]
    exact (List.getElem?_eq_none h1).symm

theorem bufExtract_write_disjoint (buf bs : List Nat) (off off2 len2 : Nat)
    (h : off + bs.length ≤ buf.length)
    (hd : off2 + len2 ≤ off ∨ off + bs.length ≤ off2) :
    bufExtract (bufWrite buf off bs) off2 len2 = bufExtract buf off2 len2 := by
  apply List.ext_getElem?
  intro k
  rw [bufExtract_getElem?, bufExtract_getElem?, bufWrite_getElem? _ _ _ _ h]
  split
  · rcases hd with hd | hd
    · have h1 : off2 + k < off := by omega
      simp [h1]
    · have h1 : ¬ off2 + k < off := by omega
      have h2 : ¬ off2 + k < off + bs.length := by omega
      simp [h1, h2]
  · rfl

theorem bufExtract_replicate (n off len : Nat) (a : Nat) (h : off + len ≤ n) :
    bufExtract (List.replicate n a) off len = List.replicate len a := by
  apply List.ext_getElem?
  intro k
  rw [bufExtract_getElem?, List.getElem?_replicate, List.getElem?_replicate]
  split
  · have h2 : off + k < n := by omega
    simp [h2]
  · rfl

theorem clampLen_pos (r : Nat) : 1 ≤ clampLen r := by
  unfold clampLen
  omega

theorem tokenEff?_field_lenOK (r : Nat) (c : Char) (ty : FieldType) (l : Nat)
    (h : tokenEff? r c = .ok (.emit (.fieldItem ty l))) : 1 ≤ l ∧ lenOK ty l := by
  unfold tokenEff? at h
  split at h
  all_goals try exact Except.noConfusion h
  all_goals injection h with h2
  all_goals try exact TokenEff.noConfusion h2
  all_goals injection h2 with h3
  all_goals try exact PackItem.noConfusion h3
  all_goals injection h3 with h4 h5
  all_goals subst h4
  all_goals subst h5
  all_goals refine ⟨?_, ?_⟩
  all_goals try exact clampLen_pos r
  all_goals try rfl
  all_goals try exact le_refl 1
  all_goals decide

theorem scanAux_inv (cs : List Char) (st st2 : ScanState)
    (h : scanAux cs st = .ok st2) (hinv : ScanInv st) : ScanInv st2 := by
  induction cs generalizing st with
  | nil =>
    unfold scanAux at h
    injection h with h
    subst h
    exact hinv
  | cons c cs ih =>
    unfold scanAux at h
    split at h
    · exact ih _ h hinv
    · split at h
      · exact absurd h (by simp)
      · exact ih _ h hinv
      · rename_i ty l heff
        apply ih _ h
        obtain ⟨hfit, hdisj, hrest⟩ := hinv
        obtain ⟨hl1, hl2⟩ := tokenEff?_field_lenOK _ _ _ _ heff
        refine ⟨?_, ?_, ?_⟩
        · intro f hf
          simp only [List.mem_append, List.mem_singleton] at hf
          rcases hf with hf | rfl
          · have := hfit f hf
            simp only
            omega
          · simp
        · rw [List.pairwise_append]
          refine ⟨hdisj, by simp, ?_⟩
          intro a ha b hb
          simp only [List.mem_singleton] at hb
          subst hb
          exact hfit a ha
        · intro f hf
          simp only [List.mem_append, List.mem_singleton] at hf
          rcases hf with hf | rfl
          · exact hrest f hf
          · exact ⟨hl1, hl2⟩
      · apply ih _ h
        obtain ⟨hfit, hdisj, hrest⟩ := hinv
        refine ⟨?_, hdisj, hrest⟩
        intro f hf
        have := hfit f hf
        simp only
        omega

theorem sequence_from_WF (s : String) (d : PackingDescriptor)
    (h : sequence_from s = .ok d) : WF d := by
  unfold sequence_from at h
  split at h
  · exact absurd h (by simp)
  · rename_i st2 hscan
    injection h with h
    subst h
    have hinv : ScanInv st2 := scanAux_inv _ _ _ hscan ⟨by simp, by simp, by simp⟩
    obtain ⟨hfit, hdisj, hrest⟩ := hinv
    exact ⟨hfit, hdisj, fun f hf => (hrest f hf).1, fun f hf => (hrest f hf).2⟩

theorem directiveOrder?_of_digit (c : Char) (h : c.isDigit = true) :
    directiveOrder? c = none := by
  unfold directiveOrder?
  split
  all_goals try rfl
  all_goals exact absurd h (by decide)

theorem tokenEff?_setOrder_directive (r : Nat) (c : Char) (o : Endianness)
    (h : tokenEff? r c = .ok (.setOrder o)) : directiveOrder? c = some o := by
  unfold tokenEff? at h
  split at h
  all_goals try exact Except.noConfusion h
  all_goals injection h with h2
  all_goals try exact TokenEff.noConfusion h2
  all_goals injection h2 with h3
  all_goals subst h3
  all_goals rfl

theorem tokenEff?_emit_directive (r : Nat) (c : Char) (it : PackItem)
    (h : tokenEff? r c = .ok (.emit it)) : directiveOrder? c = none := by
  unfold tokenEff? at h
  split at h
  all_goals try exact Except.noConfusion h
  all_goals injection h with h2
  all_goals try exact TokenEff.noConfusion h2
  all_goals rfl

theorem scanAux_order (cs : List Char) (st st2 : ScanState)
    (h : scanAux cs st = .ok st2) :
    st2.order = (cs.reverse.findSome? directiveOrder?).getD st.order := by
  induction cs generalizing st with
  | nil =>
    unfold scanAux at h
    injection h with h
    subst h
    simp [List.findSome?]
  | cons c cs ih =>
    unfold scanAux at h
    rw [List.reverse_cons, List.findSome?_append]
    split at h
    · rename_i hdig
      have hd : directiveOrder? c = none := directiveOrder?_of_digit c hdig
      have := ih _ h
      simp only [List.findSome?_cons, hd, List.findSome?_nil, Option.or_none]
      exact this
    · split at h
      · exact absurd h (by simp)
      · rename_i o heff
        have hd : directiveOrder? c = some o := tokenEff?_setOrder_directive _ _ _ heff
        have := ih _ h
        simp only [List.findSome?_cons, hd, List.findSome?_nil]
        rw [this]
        cases hx : cs.reverse.findSome? directiveOrder? <;> simp [Option.or]
      · rename_i ty l heff
        have hd : directiveOrder? c = none :=
          tokenEff?_emit_directive _ _ _ heff
        have := ih _ h
        simp only [List.findSome?_cons, hd, List.findSome?_nil, Option.or_none]
        exact this
      · rename_i l heff
        have hd : directiveOrder? c = none :=
          tokenEff?_emit_directive _ _ _ heff
        have := ih _ h
        simp only [List.findSome?_cons, hd, List.findSome?_nil, Option.or_none]
        exact this

theorem digitsFold_congr (ds : List Char) (a b : Nat) (h : a % USIZE = b % USIZE) :
    (ds.foldl (fun x c => x * 10 + (c.toNat - 48)) a) % USIZE =
    (ds.foldl (fun x c => x * 10 + (c.toNat - 48)) b) % USIZE := by
  induction ds generalizing a b with
  | nil => exact h
  | cons c ds ih =>
    simp only [List.foldl_cons]
    exact ih _ _ (Nat.ModEq.add_right _ (Nat.ModEq.mul_right _ h))

/-- Scanning a digit run accumulates its decimal value into running_length
modulo the usize width, then continues. -/
theorem scanAux_digits (ds : List Char) (rest : List Char) (st : ScanState)
    (hds : ∀ c ∈ ds, c.isDigit = true) (hr : st.runningLength < USIZE) :
    scanAux (ds ++ rest) st =
      scanAux rest { st with runningLength :=
        (ds.foldl (fun a c => a * 10 + (c.toNat - 48)) st.runningLength) % USIZE } := by
  induction ds generalizing st with
  | nil =>
    simp only [List.nil_append, List.foldl_nil, Nat.mod_eq_of_lt hr]
  | cons c ds ih =>
    have hc : c.isDigit = true := hds c (by simp)
    simp only [List.cons_append]
    rw [scanAux]
    rw [if_pos hc]
    rw [ih _ (fun x hx => hds x (by simp [hx])) (Nat.mod_lt _ (by unfold USIZE; positivity))]
    simp only [List.foldl_cons]
    rw [digitsFold_congr ds _ _ (Nat.mod_mod_of_dvd _ dvd_rfl)]

theorem shiftFields_nil (off : Nat) : shiftFields off [] = [] := rfl

theorem shiftFields_shiftFields (a b : Nat) (fs : List FieldDescriptior) :
    shiftFields a (shiftFields b fs) = shiftFields (a + b) fs := by
  unfold shiftFields
  rw [List.map_map]
  apply List.map_congr_left
  intro f hf
  simp [Nat.add_assoc]

theorem assignOffsets_shift (items : List PackItem) (a b : Nat) :
    assignOffsets items (a + b) = shiftFields a (assignOffsets items b) := by
  induction items generalizing b with
  | nil => rfl
  | cons it rest ih =>
    cases it with
    | fieldItem ty l =>
      simp only [assignOffsets, shiftFields, List.map_cons]
      congr 1
      have := ih (b + l)
      rw [← Nat.add_assoc] at this
      exact this
    | padItem l =>
      simp only [assignOffsets]
      have := ih (b + l)
      rw [← Nat.add_assoc] at this
      exact this

theorem totalLen_cons (it : PackItem) (items : List PackItem) :
    totalLen (it :: items) = itemLength it + totalLen items := by
  simp [totalLen]

theorem assignOffsets_length (items : List PackItem) (off : Nat) :
    (assignOffsets items off).length = (items.filter isFieldItem).length := by
  induction items generalizing off with
  | nil => rfl
  | cons it rest ih =>
    cases it with
    | fieldItem ty l => simp [assignOffsets, List.filter, isFieldItem, ih]
    | padItem l => simp [assignOffsets, List.filter, isFieldItem, ih]

theorem scanItemsAux_frame (cs : List Char) (o : Endianness) (I : List PackItem) (r : Nat) :
    scanItemsAux cs ⟨o, I, r⟩ =
      (scanItemsAux cs ⟨o, [], r⟩).map fun st => ⟨st.order, I ++ st.items, st.runningLength⟩ := by
  induction cs generalizing o I r with
  | nil => simp [scanItemsAux, Except.map]
  | cons c cs ih =>
    by_cases hdig : c.isDigit = true
    · simp only [scanItemsAux, hdig, if_true]
      exact ih o I _
    · have hdig2 : ¬ c.isDigit = true := hdig
      cases heff : tokenEff? r c with
      | error e =>
        simp [scanItemsAux, hdig2, heff, Except.map]
      | ok te =>
        cases te with
        | setOrder o2 =>
          simp only [scanItemsAux, hdig2, Bool.false_eq_true, if_false, heff, List.nil_append]
          exact ih o2 I 0
        | emit it =>
          simp only [scanItemsAux, hdig2, Bool.false_eq_true, if_false, heff, List.nil_append]
          rw [ih o (I ++ [it]) 0, ih o [it] 0]
          cases hb : scanItemsAux cs ⟨o, [], 0⟩ with
          | error e => simp [Except.map]
          | ok st => simp [Except.map, List.append_assoc]

theorem scanAux_frame (cs : List Char) (o : Endianness) (F : List FieldDescriptior)
    (r off : Nat) :
    scanAux cs ⟨o, F, r, off⟩ =
      (scanAux cs ⟨o, [], r, 0⟩).map fun st =>
        ⟨st.order, F ++ shiftFields off st.fields, st.runningLength, off + st.offset⟩ := by
  induction cs generalizing o F r off with
  | nil => simp [scanAux, Except.map, shiftFields_nil]
  | cons c cs ih =>
    by_cases hdig : c.isDigit = true
    · simp only [scanAux, hdig, if_true]
      exact ih o F _ off
    · have hdig2 : ¬ c.isDigit = true := hdig
      cases heff : tokenEff? r c with
      | error e =>
        simp [scanAux, hdig2, heff, Except.map]
      | ok te =>
        cases te with
        | setOrder o2 =>
          simp only [scanAux, hdig2, Bool.false_eq_true, if_false, heff, List.nil_append]
          exact ih o2 F 0 off
        | emit it =>
          cases it with
          | fieldItem ty l =>
            simp only [scanAux, hdig2, Bool.false_eq_true, if_false, heff, List.nil_append]
            simp only [Nat.zero_add]
            rw [ih o (F ++ [({ ty := ty, length := l, offset := off } : FieldDescriptior)]) 0 (off + l),
              ih o [({ ty := ty, length := l, offset := 0 } : FieldDescriptior)] 0 l]
            cases hb : scanAux cs ⟨o, [], 0, 0⟩ with
            | error e => simp [Except.map]
            | ok st =>
              cases st with
              | mk o3 f3 r3 off3 =>
                simp [Except.map, shiftFields, Function.comp, List.map_map, Nat.add_assoc]
          | padItem l =>
            simp only [scanAux, hdig2, Bool.false_eq_true, if_false, heff, List.nil_append]
            simp only [Nat.zero_add]
            rw [ih o F 0 (off + l), ih o [] 0 l]
            cases hb : scanAux cs ⟨o, [], 0, 0⟩ with
            | error e => simp [Except.map]
            | ok st =>
              cases st with
              | mk o3 f3 r3 off3 =>
                simp [Except.map, shiftFields, Function.comp, List.map_map, Nat.add_assoc]

theorem scan_agree (cs : List Char) (o : Endianness) (r : Nat) :
    scanAux cs ⟨o, [], r, 0⟩ =
      (scanItemsAux cs ⟨o, [], r⟩).map fun st =>
        ⟨st.order, assignOffsets st.items 0, st.runningLength, totalLen st.items⟩ := by
  induction cs generalizing o r with
  | nil => simp [scanAux, scanItemsAux, Except.map, assignOffsets, totalLen]
  | cons c cs ih =>
    by_cases hdig : c.isDigit = true
    · simp only [scanAux, scanItemsAux, hdig, if_true]
      exact ih o _
    · have hdig2 : ¬ c.isDigit = true := hdig
      cases heff : tokenEff? r c with
      | error e => simp [scanAux, scanItemsAux, hdig2, heff, Except.map]
      | ok te =>
        cases te with
        | setOrder o2 =>
          simp only [scanAux, scanItemsAux, hdig2, Bool.false_eq_true, if_false, heff]
          exact ih o2 0
        | emit it =>
          cases it with
          | fieldItem ty l =>
            simp only [scanAux, scanItemsAux, hdig2, Bool.false_eq_true, if_false, heff,
              List.nil_append, Nat.zero_add]
            rw [scanAux_frame cs o [({ ty := ty, length := l, offset := 0 } : FieldDescriptior)] 0 l,
              scanItemsAux_frame cs o [PackItem.fieldItem ty l] 0, ih o 0]
            cases hb : scanItemsAux cs ⟨o, [], 0⟩ with
            | error e => simp [Except.map]
            | ok st =>
              cases st with
              | mk o3 items3 r3 =>
                simp only [Except.map, assignOffsets, totalLen_cons, itemLength,
                  List.cons_append, List.nil_append, Nat.zero_add]
                have hsh := assignOffsets_shift items3 l 0
                simp only [Nat.add_zero] at hsh
                simp [← hsh]
          | padItem l =>
            simp only [scanAux, scanItemsAux, hdig2, Bool.false_eq_true, if_false, heff,
              List.nil_append, Nat.zero_add]
            rw [scanAux_frame cs o [] 0 l,
              scanItemsAux_frame cs o [PackItem.padItem l] 0, ih o 0]
            cases hb : scanItemsAux cs ⟨o, [], 0⟩ with
            | error e => simp [Except.map]
            | ok st =>
              cases st with
              | mk o3 items3 r3 =>
                simp only [Except.map, assignOffsets, totalLen_cons, itemLength,
                  List.cons_append, List.nil_append, Nat.zero_add]
                have hsh := assignOffsets_shift items3 l 0
                simp only [Nat.add_zero] at hsh
                simp [← hsh]

theorem sequence_from_items (s : String) (d : PackingDescriptor)
    (h : sequence_from s = .ok d) :
    ∃ items, scanItems s = .ok items ∧ d.fields = assignOffsets items 0 ∧
      d.size = totalLen items := by
  unfold sequence_from at h
  rw [scan_agree s.data Endianness.NATIVE 0] at h
  unfold scanItems
  cases hb : scanItemsAux s.data ⟨Endianness.NATIVE, [], 0⟩ with
  | error e =>
    rw [hb] at h
    simp [Except.map] at h
  | ok st =>
    rw [hb] at h
    simp only [Except.map] at h
    injection h with h
    subst h
    exact ⟨st.items, rfl, rfl, rfl⟩

theorem packNumBytes?_length (c : NumClass) (e : Endianness) (v : Variant) (bs : List Nat)
    (h : packNumBytes? c e v = some bs) : bs.length = widthOf c := by
  cases c with
  | signed w =>
    simp only [packNumBytes?, Option.map_eq_some'] at h
    obtain ⟨i, hi, hbs⟩ := h
    subst hbs
    simp [orderBytes_length, natBytesLE_length, widthOf]
  | unsigned w =>
    simp only [packNumBytes?, Option.map_eq_some'] at h
    obtain ⟨i, hi, hbs⟩ := h
    subst hbs
    simp [orderBytes_length, natBytesLE_length, widthOf]
  | float32 =>
    simp only [packNumBytes?, Option.map_eq_some'] at h
    obtain ⟨i, hi, hbs⟩ := h
    subst hbs
    simp [orderBytes_length, natBytesLE_length, widthOf]
  | float64 =>
    simp only [packNumBytes?, Option.map_eq_some'] at h
    obtain ⟨i, hi, hbs⟩ := h
    subst hbs
    simp [orderBytes_length, natBytesLE_length, widthOf]

theorem packFieldWrite_num (e : Endianness) (buf : List Nat) (v : Variant)
    (fd : FieldDescriptior) (c : NumClass) (hc : numClassOf fd.ty = some c) :
    packFieldWrite e buf v fd =
      match packNumBytes? c e v with
      | some bs => .ok (bufWrite buf fd.offset bs)
      | none => .error .writeConversionFailure := by
  obtain ⟨ty, len, off⟩ := fd
  cases ty <;> simp_all [numClassOf, packFieldWrite]

theorem packFieldWrite_nonnum (e : Endianness) (buf : List Nat) (v : Variant)
    (fd : FieldDescriptior) (hc : numClassOf fd.ty = none) :
    ∃ buf2, packFieldWrite e buf v fd = .ok buf2 := by
  obtain ⟨ty, len, off⟩ := fd
  cases ty <;> simp_all [numClassOf, packFieldWrite]
  · cases h1 : (stringUTF8 (variantToString v)).head? <;> exact ⟨_, rfl⟩
  · cases h1 : coerceBool? v <;> exact ⟨_, rfl⟩

theorem bufWrite_spec (buf bs : List Nat) (off L : Nat)
    (hb : bs.length ≤ L) (hfit : off + L ≤ buf.length) :
    (bufWrite buf off bs).length = buf.length ∧
    ∀ off2 len2, (off2 + len2 ≤ off ∨ off + L ≤ off2) →
      bufExtract (bufWrite buf off bs) off2 len2 = bufExtract buf off2 len2 := by
  have hfit2 : off + bs.length ≤ buf.length := by omega
  refine ⟨bufWrite_length _ _ _ hfit2, ?_⟩
  intro off2 len2 hd
  apply bufExtract_write_disjoint _ _ _ _ _ hfit2
  rcases hd with hd | hd
  · exact Or.inl hd
  · exact Or.inr (by omega)

theorem packFieldWrite_ok_spec (e : Endianness) (buf : List Nat) (v : Variant)
    (fd : FieldDescriptior) (buf2 : List Nat)
    (hfit : fd.offset + fd.length ≤ buf.length)
    (hlen : lenOK fd.ty fd.length)
    (h : packFieldWrite e buf v fd = .ok buf2) :
    buf2.length = buf.length ∧
    ∀ off2 len2, (off2 + len2 ≤ fd.offset ∨ fd.offset + fd.length ≤ off2) →
      bufExtract buf2 off2 len2 = bufExtract buf off2 len2 := by
  cases hc : numClassOf fd.ty with
  | some c =>
    rw [packFieldWrite_num e buf v fd c hc] at h
    cases hbs : packNumBytes? c e v with
    | some bs =>
      rw [hbs] at h
      injection h with h
      subst h
      have hl : bs.length = widthOf c := packNumBytes?_length c e v bs hbs
      have hw : fd.length = widthOf c := by
        unfold lenOK at hlen
        rw [hc] at hlen
        exact hlen
      exact bufWrite_spec buf bs fd.offset fd.length (by omega) hfit
    | none =>
      rw [hbs] at h
      exact absurd h (by simp)
  | none =>
    obtain ⟨ty, len, off⟩ := fd
    cases ty
    all_goals simp only [numClassOf] at hc
    all_goals try exact Option.noConfusion hc
    · -- string
      simp only [packFieldWrite] at h
      injection h with h
      subst h
      have hm : (List.take (min (stringUTF8 (variantToString v)).length len)
          (stringUTF8 (variantToString v))).length ≤ len := by
        rw [List.length_take]
        omega
      exact bufWrite_spec buf _ off len hm hfit
    · -- character
      have hl : 1 ≤ len := hlen
      simp only [packFieldWrite] at h
      cases h1 : (stringUTF8 (variantToString v)).head? with
      | none =>
        rw [h1] at h
        injection h with h
        subst h
        exact ⟨rfl, fun _ _ _ => rfl⟩
      | some b =>
        rw [h1] at h
        injection h with h
        subst h
        refine bufWrite_spec buf [b] off len ?_ hfit
        simp only [List.length_cons, List.length_nil]
        omega
    · -- bool
      have hl : 1 ≤ len := hlen
      simp only [packFieldWrite] at h
      cases h1 : coerceBool? v with
      | none =>
        rw [h1] at h
        injection h with h
        subst h
        exact ⟨rfl, fun _ _ _ => rfl⟩
      | some b =>
        rw [h1] at h
        injection h with h
        subst h
        refine bufWrite_spec buf [if b then 1 else 0] off len ?_ hfit
        simp only [List.length_cons, List.length_nil]
        omega

theorem packPairs_error_iff (e : Endianness) (pairs : List (Variant × FieldDescriptior))
    (buf : List Nat) :
    packPairs e pairs buf = .error .writeConversionFailure ↔
      ∃ p ∈ pairs, ∃ c, numClassOf p.2.ty = some c ∧ packNumBytes? c e p.1 = none := by
  induction pairs generalizing buf with
  | nil => simp [packPairs]
  | cons p rest ih =>
    obtain ⟨v, fd⟩ := p
    rw [packPairs]
    cases hc : numClassOf fd.ty with
    | some c =>
      rw [packFieldWrite_num e buf v fd c hc]
      cases hbs : packNumBytes? c e v with
      | some bs =>
        dsimp only
        rw [ih]
        simp [hc, hbs]
      | none =>
        dsimp only
        simp [hc, hbs]
    | none =>
      obtain ⟨buf2, hok⟩ := packFieldWrite_nonnum e buf v fd hc
      rw [hok]
      dsimp only
      rw [ih]
      simp [hc]

theorem packPairs_ok_of (e : Endianness) (pairs : List (Variant × FieldDescriptior))
    (buf : List Nat)
    (h : ∀ p ∈ pairs, ∀ c, numClassOf p.2.ty = some c → packNumBytes? c e p.1 ≠ none) :
    ∃ buf2, packPairs e pairs buf = .ok buf2 := by
  cases hres : packPairs e pairs buf with
  | ok b => exact ⟨b, rfl⟩
  | error err =>
    cases err
    rw [packPairs_error_iff] at hres
    obtain ⟨p, hp, c, hc, hn⟩ := hres
    exact absurd hn (h p hp c hc)

theorem packPairs_preserves (e : Endianness) (pairs : List (Variant × FieldDescriptior))
    (buf buf2 : List Nat) (off0 len0 : Nat)
    (hfit : ∀ p ∈ pairs, p.2.offset + p.2.length ≤ buf.length)
    (hlc : ∀ p ∈ pairs, lenOK p.2.ty p.2.length)
    (hd : ∀ p ∈ pairs, off0 + len0 ≤ p.2.offset ∨ p.2.offset + p.2.length ≤ off0)
    (h : packPairs e pairs buf = .ok buf2) :
    buf2.length = buf.length ∧ bufExtract buf2 off0 len0 = bufExtract buf off0 len0 := by
  induction pairs generalizing buf with
  | nil =>
    rw [packPairs] at h
    injection h with h
    subst h
    exact ⟨rfl, rfl⟩
  | cons p rest ih =>
    obtain ⟨v, fd⟩ := p
    rw [packPairs] at h
    cases hw : packFieldWrite e buf v fd with
    | error err =>
      rw [hw] at h
      exact absurd h (by simp)
    | ok b1 =>
      rw [hw] at h
      obtain ⟨hb1len, hb1ext⟩ := packFieldWrite_ok_spec e buf v fd b1
        (hfit (v, fd) (List.mem_cons_self _ _)) (hlc (v, fd) (List.mem_cons_self _ _)) hw
      obtain ⟨hl2, he2⟩ := ih b1
        (fun p hp => by rw [hb1len]; exact hfit p (List.mem_cons_of_mem _ hp))
        (fun p hp => hlc p (List.mem_cons_of_mem _ hp))
        (fun p hp => hd p (List.mem_cons_of_mem _ hp)) h
      refine ⟨by rw [hl2, hb1len], ?_⟩
      rw [he2]
      exact hb1ext off0 len0 (hd (v, fd) (List.mem_cons_self _ _))

theorem packPairs_extract_num (e : Endianness) (pairs : List (Variant × FieldDescriptior))
    (buf buf2 : List Nat)
    (hfit : ∀ p ∈ pairs, p.2.offset + p.2.length ≤ buf.length)
    (hlc : ∀ p ∈ pairs, lenOK p.2.ty p.2.length)
    (hdisj : pairs.Pairwise (fun a b => a.2.offset + a.2.length ≤ b.2.offset))
    (h : packPairs e pairs buf = .ok buf2) :
    ∀ (j : Nat) (hj : j < pairs.length) (c : NumClass) (bs : List Nat),
      numClassOf (pairs.get ⟨j, hj⟩).2.ty = some c →
      packNumBytes? c e (pairs.get ⟨j, hj⟩).1 = some bs →
      bufExtract buf2 (pairs.get ⟨j, hj⟩).2.offset (pairs.get ⟨j, hj⟩).2.length = bs := by
  induction pairs generalizing buf with
  | nil =>
    intro j hj
    exact absurd hj (by simp)
  | cons p rest ih =>
    obtain ⟨v, fd⟩ := p
    rw [packPairs] at h
    cases hw : packFieldWrite e buf v fd with
    | error err =>
      rw [hw] at h
      exact absurd h (by simp)
    | ok b1 =>
      rw [hw] at h
      have hheadfit := hfit (v, fd) (List.mem_cons_self _ _)
      have hheadlc := hlc (v, fd) (List.mem_cons_self _ _)
      obtain ⟨hb1len, hb1ext⟩ := packFieldWrite_ok_spec e buf v fd b1 hheadfit hheadlc hw
      intro j hj c bs hc hbs
      cases j with
      | zero =>
        simp only [List.get] at hc hbs ⊢
        rw [packFieldWrite_num e buf v fd c hc, hbs] at hw
        injection hw with hw
        subst hw
        have hdisjhead := (List.pairwise_cons.mp hdisj).1
        obtain ⟨_, hpres⟩ := packPairs_preserves e rest (bufWrite buf fd.offset bs) buf2
          fd.offset fd.length
          (fun p hp => by rw [hb1len]; exact hfit p (List.mem_cons_of_mem _ hp))
          (fun p hp => hlc p (List.mem_cons_of_mem _ hp))
          (fun p hp => Or.inl (hdisjhead p hp)) h
        rw [hpres]
        have hbslen : bs.length = widthOf c := packNumBytes?_length c e v bs hbs
        have hfdlen : fd.length = widthOf c := by
          unfold lenOK at hheadlc
          rw [hc] at hheadlc
          exact hheadlc
        have hlen2 : fd.length = bs.length := by omega
        have hheadfit2 : fd.offset + fd.length ≤ buf.length := hheadfit
        rw [hlen2]
        exact bufExtract_write_self buf bs fd.offset (by omega)
      | succ j =>
        have hj2 : j < rest.length := by
          simp only [List.length_cons] at hj
          omega
        simp only [List.get] at hc hbs ⊢
        exact ih b1
          (fun p hp => by rw [hb1len]; exact hfit p (List.mem_cons_of_mem _ hp))
          (fun p hp => hlc p (List.mem_cons_of_mem _ hp))
          (List.pairwise_cons.mp hdisj).2 h j hj2 c bs hc hbs

theorem packFieldWrite_skip (e : Endianness) (buf : List Nat) (v : Variant)
    (fd : FieldDescriptior) (h : skipsWrite (v, fd)) :
    packFieldWrite e buf v fd = .ok buf := by
  obtain ⟨ty, len, off⟩ := fd
  rcases h with ⟨hty, hcb⟩ | ⟨hty, hcb⟩ <;>
    simp only at hty hcb <;> subst hty <;> simp [packFieldWrite, hcb]

theorem packPairs_extract_skip (e : Endianness) (pairs : List (Variant × FieldDescriptior))
    (buf buf2 : List Nat)
    (hfit : ∀ p ∈ pairs, p.2.offset + p.2.length ≤ buf.length)
    (hlc : ∀ p ∈ pairs, lenOK p.2.ty p.2.length)
    (hdisj : pairs.Pairwise (fun a b => a.2.offset + a.2.length ≤ b.2.offset))
    (h : packPairs e pairs buf = .ok buf2) :
    ∀ (j : Nat) (hj : j < pairs.length), skipsWrite (pairs.get ⟨j, hj⟩) →
      bufExtract buf2 (pairs.get ⟨j, hj⟩).2.offset (pairs.get ⟨j, hj⟩).2.length =
        bufExtract buf (pairs.get ⟨j, hj⟩).2.offset (pairs.get ⟨j, hj⟩).2.length := by
  induction pairs generalizing buf with
  | nil =>
    intro j hj
    exact absurd hj (by simp)
  | cons p rest ih =>
    obtain ⟨v, fd⟩ := p
    rw [packPairs] at h
    cases hw : packFieldWrite e buf v fd with
    | error err =>
      rw [hw] at h
      exact absurd h (by simp)
    | ok b1 =>
      rw [hw] at h
      have hheadfit := hfit (v, fd) (List.mem_cons_self _ _)
      have hheadlc := hlc (v, fd) (List.mem_cons_self _ _)
      obtain ⟨hb1len, hb1ext⟩ := packFieldWrite_ok_spec e buf v fd b1 hheadfit hheadlc hw
      intro j hj hskip
      cases j with
      | zero =>
        simp only [List.get] at hskip ⊢
        rw [packFieldWrite_skip e buf v fd hskip] at hw
        injection hw with hw
        subst hw
        have hdisjhead := (List.pairwise_cons.mp hdisj).1
        obtain ⟨_, hpres⟩ := packPairs_preserves e rest buf buf2 fd.offset fd.length
          (fun p hp => by rw [hb1len]; exact hfit p (List.mem_cons_of_mem _ hp))
          (fun p hp => hlc p (List.mem_cons_of_mem _ hp))
          (fun p hp => Or.inl (hdisjhead p hp)) h
        exact hpres
      | succ j =>
        have hj2 : j < rest.length := by
          simp only [List.length_cons] at hj
          omega
        simp only [List.get] at hskip ⊢
        rw [ih b1
          (fun p hp => by rw [hb1len]; exact hfit p (List.mem_cons_of_mem _ hp))
          (fun p hp => hlc p (List.mem_cons_of_mem _ hp))
          (List.pairwise_cons.mp hdisj).2 h j hj2 hskip]
        exact hb1ext _ _ (Or.inr ((List.pairwise_cons.mp hdisj).1 _ (List.get_mem rest j hj2)))

theorem unpackFields_all (e : Endianness) (data : List Nat)
    (fields : List FieldDescriptior) (ws : List Variant)
    (hlen : ws.length = fields.length)
    (h : ∀ (j : Nat) (hj : j < fields.length),
      readField e data (fields.get ⟨j, hj⟩) = some (ws.get ⟨j, by omega⟩)) :
    unpackFields e data fields = some ws := by
  induction fields generalizing ws with
  | nil =>
    cases ws with
    | nil => rfl
    | cons w ws => exact absurd hlen (by simp)
  | cons fd rest ih =>
    cases ws with
    | nil => exact absurd hlen (by simp)
    | cons w ws =>
      have h0 := h 0 (by simp)
      simp only [List.get] at h0
      rw [unpackFields, h0]
      have htail := ih ws (by simpa using hlen) (fun j hj => by
        have hstep := h (j + 1) (by simpa using Nat.succ_lt_succ hj)
        simpa [List.get] using hstep)
      rw [htail]
      rfl

theorem readField_num (e : Endianness) (data : List Nat) (fd : FieldDescriptior)
    (c : NumClass) (hc : numClassOf fd.ty = some c) :
    readField e data fd = some (readNum c e (bufExtract data fd.offset fd.length)) := by
  obtain ⟨ty, len, off⟩ := fd
  cases ty <;> simp_all [numClassOf, readField]

theorem readField_character (e : Endianness) (data : List Nat) (fd : FieldDescriptior)
    (hty : fd.ty = .character) :
    readField e data fd =
      some (.vString (String.mk [Char.ofNat (data.getD fd.offset 0)])) := by
  obtain ⟨ty, len, off⟩ := fd
  simp only at hty
  subst hty
  simp [readField]

theorem numericToken_emit (c : Char) (hc : c ∈ numericTokens) (r : Nat) (it : PackItem)
    (heff : tokenEff? r c = .ok (.emit it)) :
    ∃ ty l, it = .fieldItem ty l ∧ (numClassOf ty).isSome := by
  simp only [numericTokens, List.mem_cons, List.not_mem_nil, or_false] at hc
  rcases hc with rfl | rfl | rfl | rfl | rfl | rfl | rfl | rfl | rfl | rfl | rfl | rfl | rfl
    | rfl | rfl | rfl | rfl
  all_goals try exact TokenEff.noConfusion (Except.ok.inj heff)
  all_goals injection heff with h2
  all_goals injection h2 with h3
  all_goals exact ⟨_, _, h3.symm, by decide⟩

theorem scanAux_numeric (cs : List Char) (st st2 : ScanState)
    (h : scanAux cs st = .ok st2)
    (hcs : ∀ c ∈ cs, c.isDigit = true ∨ c ∈ numericTokens)
    (hst : ∀ f ∈ st.fields, (numClassOf f.ty).isSome) :
    ∀ f ∈ st2.fields, (numClassOf f.ty).isSome := by
  induction cs generalizing st with
  | nil =>
    unfold scanAux at h
    injection h with h
    subst h
    exact hst
  | cons c cs ih =>
    rw [scanAux] at h
    by_cases hdig : c.isDigit = true
    · rw [if_pos hdig] at h
      exact ih _ h (fun x hx => hcs x (List.mem_cons_of_mem _ hx)) hst
    · rw [if_neg hdig] at h
      have hmem : c ∈ numericTokens :=
        (hcs c (List.mem_cons_self _ _)).resolve_left hdig
      cases heff : tokenEff? st.runningLength c with
      | error e =>
        rw [heff] at h
        exact absurd h (by simp)
      | ok te =>
        rw [heff] at h
        cases te with
        | setOrder o2 =>
          dsimp only at h
          exact ih _ h (fun x hx => hcs x (List.mem_cons_of_mem _ hx)) hst
        | emit it =>
          obtain ⟨ty, l, rfl, hsome⟩ := numericToken_emit c hmem _ it heff
          dsimp only at h
          apply ih _ h (fun x hx => hcs x (List.mem_cons_of_mem _ hx))
          intro f hf
          rcases List.mem_append.mp hf with hf | hf
          · exact hst f hf
          · rw [List.mem_singleton] at hf
            subst hf
            exact hsome

theorem sequence_from_numeric (s : String) (d : PackingDescriptor)
    (hfmt : ∀ c ∈ s.data, c.isDigit = true ∨ c ∈ numericTokens)
    (hseq : sequence_from s = .ok d) :
    ∀ f ∈ d.fields, (numClassOf f.ty).isSome := by
  unfold sequence_from at hseq
  cases hscan : scanAux s.data ⟨Endianness.NATIVE, [], 0, 0⟩ with
  | error e =>
    rw [hscan] at hseq
    exact absurd hseq (by simp)
  | ok st =>
    rw [hscan] at hseq
    injection hseq with hseq
    subst hseq
    exact scanAux_numeric s.data _ _ hscan hfmt (by simp)

theorem toF32relaxed_lt (b : Nat) : toF32relaxed b < 2 ^ 32 := by
  simp only [toF32relaxed]
  have hs : (b / 2 ^ 63) % 2 < 2 := Nat.mod_lt _ (by norm_num)
  have hM : b % 2 ^ 52 < 2 ^ 52 := Nat.mod_lt _ (by norm_num)
  have hE : (b / 2 ^ 52) % 2 ^ 11 < 2 ^ 11 := Nat.mod_lt _ (by norm_num)
  split_ifs with h1 h2 h3 h4
  · omega
  · omega
  · omega
  · have h30 : 30 ≤ 926 - (b / 2 ^ 52) % 2 ^ 11 := by omega
    have hle : (2 : Nat) ^ 53 ≤ 2 ^ (926 - (b / 2 ^ 52) % 2 ^ 11) * 2 ^ 23 := by
      calc (2 : Nat) ^ 53 = 2 ^ 30 * 2 ^ 23 := by norm_num
      _ ≤ 2 ^ (926 - (b / 2 ^ 52) % 2 ^ 11) * 2 ^ 23 :=
        Nat.mul_le_mul_right _ (Nat.pow_le_pow_right (by norm_num) h30)
    have hdiv : (2 ^ 52 + b % 2 ^ 52) / 2 ^ (926 - (b / 2 ^ 52) % 2 ^ 11) < 2 ^ 23 := by
      apply Nat.div_lt_of_lt_mul
      omega
    omega
  · omega

theorem packNumBytes?_roundtrip (c : NumClass) (e : Endianness) (v : Variant)
    (h : representableN c v = true) :
    ∃ bs, packNumBytes? c e v = some bs ∧ readNum c e bs = v := by
  cases c with
  | signed w =>
    cases v
    all_goals try exact Bool.noConfusion h
    rename_i i
    simp only [representableN, decide_eq_true_eq] at h
    have hw : 1 ≤ w := by
      by_contra hw
      have hw0 : w = 0 := by omega
      subst hw0
      norm_num at h
      omega
    have hcoerce : coerceSigned? w (.vInt i) = some i := by
      simp only [coerceSigned?, coerceToInt?, Option.some_bind]
      exact if_pos h
    refine ⟨orderBytes e (natBytesLE w (i % (256 ^ w : Int)).toNat), ?_, ?_⟩
    · simp only [packNumBytes?, hcoerce, Option.map_some']
    · have hn : (i % (256 ^ w : Int)).toNat < 256 ^ w := emod_toNat_lt i w
      simp only [readNum, orderBytes_orderBytes, natFromBytesLE_natBytesLE,
        Nat.mod_eq_of_lt hn]
      rw [decodeSigned_encode w hw i h.1 h.2]
  | unsigned w =>
    cases v
    all_goals try exact Bool.noConfusion h
    rename_i i
    simp only [representableN, decide_eq_true_eq] at h
    have hcoerce : coerceUnsigned? w (.vInt i) = some i := by
      simp only [coerceUnsigned?, coerceToInt?, Option.some_bind]
      exact if_pos h
    refine ⟨orderBytes e (natBytesLE w i.toNat), ?_, ?_⟩
    · simp only [packNumBytes?, hcoerce, Option.map_some']
    · have hn : i.toNat < 256 ^ w := by
        have hP : ((256 ^ w : Nat) : Int) = (256 ^ w : Int) := by push_cast; ring
        omega
      simp only [readNum, orderBytes_orderBytes, natFromBytesLE_natBytesLE,
        Nat.mod_eq_of_lt hn]
      congr 1
      omega
  | float32 =>
    cases v
    all_goals try exact Bool.noConfusion h
    rename_i b
    simp only [representableN, decide_eq_true_eq] at h
    refine ⟨orderBytes e (natBytesLE 4 (toF32relaxed b)), ?_, ?_⟩
    · simp only [packNumBytes?, coerceF32?, Option.map_some']
    · have hn : toF32relaxed b < 256 ^ 4 := by
        have hlt := toF32relaxed_lt b
        norm_num at hlt ⊢
        omega
      simp only [readNum, orderBytes_orderBytes, natFromBytesLE_natBytesLE,
        Nat.mod_eq_of_lt hn, h.2]
  | float64 =>
    cases v
    all_goals try exact Bool.noConfusion h
    rename_i b
    simp only [representableN, decide_eq_true_eq] at h
    refine ⟨orderBytes e (natBytesLE 8 b), ?_, ?_⟩
    · simp only [packNumBytes?, coerceF64?, Option.map_some']
    · have hn : b < 256 ^ 8 := by
        norm_num
        omega
      simp only [readNum, orderBytes_orderBytes, natFromBytesLE_natBytesLE,
        Nat.mod_eq_of_lt hn]

theorem zip_pairwise_snd (vs : List Variant) (fs : List FieldDescriptior)
    (h : fs.Pairwise (fun a b => a.offset + a.length ≤ b.offset)) :
    (vs.zip fs).Pairwise (fun a b => a.2.offset + a.2.length ≤ b.2.offset) := by
  rw [List.pairwise_iff_getElem] at h ⊢
  intro i j hi hj hij
  have hi0 := hi
  have hj0 := hj
  rw [List.length_zip] at hi0 hj0
  have hi2 : i < fs.length := lt_of_lt_of_le hi0 inf_le_right
  have hj2 : j < fs.length := lt_of_lt_of_le hj0 inf_le_right
  have hi1 : i < vs.length := lt_of_lt_of_le hi0 inf_le_left
  have hj1 : j < vs.length := lt_of_lt_of_le hj0 inf_le_left
  simp only [List.getElem_zip]
  exact h i j hi2 hj2 hij

theorem zip_snd_mem (vs : List Variant) (fs : List FieldDescriptior)
    (p : Variant × FieldDescriptior) (hp : p ∈ vs.zip fs) : p.2 ∈ fs := by
  obtain ⟨a, b⟩ := p
  exact (List.of_mem_zip hp).2

/-- Claim C3: for every descriptor compiled from a format containing only
fixed-width numeric tokens (with digits and order directives), and every
value sequence of exactly the field count whose values are each exactly
representable in their field's numeric type, pack succeeds and unpack of the
packed buffer returns the original values. -/
theorem godotPack_c3_numeric_roundtrip (s : String) (d : PackingDescriptor)
    (vs : List Variant)
    (hfmt : ∀ c ∈ s.data, c.isDigit = true ∨ c ∈ numericTokens)
    (hseq : sequence_from s = .ok d)
    (hlen : vs.length = d.fields.length)
    (hrep : ∀ (j : Nat) (hj : j < d.fields.length),
      representableB (d.fields.get ⟨j, hj⟩).ty (vs.getD j .nil) = true) :
    ∃ buf, pack_impl d vs = .ok buf ∧ unpack_impl d buf = .ok vs := by
  have hwf := sequence_from_WF s d hseq
  have hnum := sequence_from_numeric s d hfmt hseq
  have hplen : (vs.zip d.fields).length = d.fields.length := by
    rw [List.length_zip, hlen]
    exact min_self _
  have hget : ∀ (j : Nat) (hj : j < (vs.zip d.fields).length),
      (vs.zip d.fields).get ⟨j, hj⟩ =
        (vs.get ⟨j, by rw [hlen, ← hplen]; exact hj⟩,
         d.fields.get ⟨j, by rw [← hplen]; exact hj⟩) := by
    intro j hj
    simp [List.get_eq_getElem, List.getElem_zip]
  have hrep2 : ∀ (j : Nat) (hj : j < (vs.zip d.fields).length) (c : NumClass),
      numClassOf ((vs.zip d.fields).get ⟨j, hj⟩).2.ty = some c →
      representableN c ((vs.zip d.fields).get ⟨j, hj⟩).1 = true := by
    intro j hj c hc
    rw [hget j hj] at hc ⊢
    have hj2 : j < d.fields.length := by rw [← hplen]; exact hj
    have hj1 : j < vs.length := by rw [hlen, ← hplen]; exact hj
    have hr := hrep j hj2
    rw [List.getD_eq_getElem vs .nil hj1] at hr
    unfold representableB at hr
    rw [hc] at hr
    simpa [List.get_eq_getElem] using hr
  have hfit : ∀ p ∈ vs.zip d.fields,
      p.2.offset + p.2.length ≤ (List.replicate d.size 0).length := by
    intro p hp
    rw [List.length_replicate]
    exact hwf.fit p.2 (zip_snd_mem vs d.fields p hp)
  have hlc : ∀ p ∈ vs.zip d.fields, lenOK p.2.ty p.2.length :=
    fun p hp => hwf.lc p.2 (zip_snd_mem vs d.fields p hp)
  have hdisj := zip_pairwise_snd vs d.fields hwf.disj
  obtain ⟨buf, hbuf⟩ := packPairs_ok_of d.endianness (vs.zip d.fields)
    (List.replicate d.size 0) (by
      intro p hp c hc hn
      obtain ⟨⟨j, hj⟩, hpj⟩ := List.get_of_mem hp
      rw [← hpj] at hc hn
      have := hrep2 j hj c hc
      obtain ⟨bs, hbs, _⟩ := packNumBytes?_roundtrip c d.endianness _ this
      rw [hbs] at hn
      exact Option.noConfusion hn)
  have hbuflen : buf.length = d.size := by
    have := packPairs_preserves d.endianness (vs.zip d.fields) (List.replicate d.size 0)
      buf 0 0 hfit hlc (fun p hp => Or.inl (Nat.zero_le _)) hbuf
    rw [this.1, List.length_replicate]
  refine ⟨buf, hbuf, ?_⟩
  unfold unpack_impl
  rw [if_neg (by omega)]
  have hfields : unpackFields d.endianness buf d.fields = some vs := by
    apply unpackFields_all d.endianness buf d.fields vs hlen
    intro j hj
    have hj3 : j < (vs.zip d.fields).length := by rw [hplen]; exact hj
    obtain ⟨c, hc⟩ := Option.isSome_iff_exists.mp
      (hnum (d.fields.get ⟨j, hj⟩) (List.get_mem d.fields j hj))
    have hcz : numClassOf ((vs.zip d.fields).get ⟨j, hj3⟩).2.ty = some c := by
      rw [hget j hj3]
      exact hc
    have hrepj := hrep2 j hj3 c hcz
    obtain ⟨bs, hbs, hread⟩ := packNumBytes?_roundtrip c d.endianness
      ((vs.zip d.fields).get ⟨j, hj3⟩).1 hrepj
    have hextract := packPairs_extract_num d.endianness (vs.zip d.fields)
      (List.replicate d.size 0) buf hfit hlc hdisj hbuf j hj3 c bs hcz hbs
    rw [readField_num d.endianness buf _ c hc]
    rw [hget j hj3] at hextract hread
    simp only at hextract hread
    rw [hextract, hread]
  rw [hfields]

/-- Claim C4: if any input value paired with a fixed-width numeric field
cannot be coerced to that field's numeric type, the whole pack call fails
with WriteConversionFailure, not a partial buffer. -/
theorem godotPack_c4_conversion_failure (d : PackingDescriptor) (vs : List Variant)
    (h : ∃ (j : Nat) (hj : j < (vs.zip d.fields).length) (c : NumClass),
      numClassOf ((vs.zip d.fields).get ⟨j, hj⟩).2.ty = some c ∧
      packNumBytes? c d.endianness ((vs.zip d.fields).get ⟨j, hj⟩).1 = none) :
    pack_impl d vs = .error .writeConversionFailure := by
  obtain ⟨j, hj, c, hc, hn⟩ := h
  unfold pack_impl
  rw [packPairs_error_iff]
  exact ⟨_, List.get_mem _ j hj, c, hc, hn⟩

theorem zip_length_le_right (vs : List Variant) (fs : List FieldDescriptior) :
    (vs.zip fs).length ≤ fs.length := by
  rw [List.length_zip]
  exact inf_le_right

theorem zip_length_le_left (vs : List Variant) (fs : List FieldDescriptior) :
    (vs.zip fs).length ≤ vs.length := by
  rw [List.length_zip]
  exact inf_le_left

theorem zip_get_snd (vs : List Variant) (fs : List FieldDescriptior) (j : Nat)
    (hj : j < (vs.zip fs).length) (h2 : j < fs.length) :
    ((vs.zip fs).get ⟨j, hj⟩).2 = fs.get ⟨j, h2⟩ := by
  simp [List.get_eq_getElem, List.getElem_zip]

theorem zip_append_of_le (vs ws : List Variant) (fs : List FieldDescriptior)
    (h : fs.length ≤ vs.length) : (vs ++ ws).zip fs = vs.zip fs := by
  induction fs generalizing vs with
  | nil => simp [List.zip_nil_right]
  | cons f fs ih =>
    cases vs with
    | nil => simp at h
    | cons v vs =>
      simp only [List.cons_append, List.zip_cons_cons]
      rw [ih vs (by simpa using h)]

/-- Claim C5: pack succeeds whenever every value actually paired with a
fixed-width numeric field coerces; missing trailing values leave their
fields zero-filled, extra values beyond the field count do not change the
result, and Bool/Character fields paired with non-coercible / empty-text
values stay zero. -/
theorem godotPack_c5_permissive (s : String) (d : PackingDescriptor) (vs : List Variant)
    (hseq : sequence_from s = .ok d)
    (hco : ∀ (j : Nat) (hj : j < (vs.zip d.fields).length) (c : NumClass),
      numClassOf ((vs.zip d.fields).get ⟨j, hj⟩).2.ty = some c →
      packNumBytes? c d.endianness ((vs.zip d.fields).get ⟨j, hj⟩).1 ≠ none) :
    ∃ buf, pack_impl d vs = .ok buf ∧
      (d.fields.length ≤ vs.length → ∀ ws, pack_impl d (vs ++ ws) = pack_impl d vs) ∧
      (∀ (j : Nat) (hj : j < d.fields.length), vs.length ≤ j →
        bufExtract buf (d.fields.get ⟨j, hj⟩).offset (d.fields.get ⟨j, hj⟩).length =
          List.replicate (d.fields.get ⟨j, hj⟩).length 0) ∧
      (∀ (j : Nat) (hj : j < (vs.zip d.fields).length),
        skipsWrite ((vs.zip d.fields).get ⟨j, hj⟩) →
        bufExtract buf ((vs.zip d.fields).get ⟨j, hj⟩).2.offset
            ((vs.zip d.fields).get ⟨j, hj⟩).2.length =
          List.replicate ((vs.zip d.fields).get ⟨j, hj⟩).2.length 0) := by
  have hwf := sequence_from_WF s d hseq
  have hfit : ∀ p ∈ vs.zip d.fields,
      p.2.offset + p.2.length ≤ (List.replicate d.size 0).length := by
    intro p hp
    rw [List.length_replicate]
    exact hwf.fit p.2 (zip_snd_mem vs d.fields p hp)
  have hlc : ∀ p ∈ vs.zip d.fields, lenOK p.2.ty p.2.length :=
    fun p hp => hwf.lc p.2 (zip_snd_mem vs d.fields p hp)
  have hdisj := zip_pairwise_snd vs d.fields hwf.disj
  obtain ⟨buf, hbuf⟩ := packPairs_ok_of d.endianness (vs.zip d.fields)
    (List.replicate d.size 0) (by
      intro p hp c hc
      obtain ⟨⟨j, hj⟩, hpj⟩ := List.get_of_mem hp
      rw [← hpj] at hc ⊢
      exact hco j hj c hc)
  refine ⟨buf, hbuf, ?_, ?_, ?_⟩
  · intro hover ws
    unfold pack_impl
    rw [zip_append_of_le vs ws d.fields hover]
  · intro j hj hjge
    have hd : ∀ p ∈ vs.zip d.fields,
        (d.fields.get ⟨j, hj⟩).offset + (d.fields.get ⟨j, hj⟩).length ≤ p.2.offset ∨
        p.2.offset + p.2.length ≤ (d.fields.get ⟨j, hj⟩).offset := by
      intro p hp
      obtain ⟨⟨i, hi⟩, hpi⟩ := List.get_of_mem hp
      have hi2 : i < d.fields.length := lt_of_lt_of_le hi (zip_length_le_right vs d.fields)
      have hij : i < j := by
        have := lt_of_lt_of_le hi (zip_length_le_left vs d.fields)
        omega
      right
      rw [← hpi, zip_get_snd vs d.fields i hi hi2]
      have := (List.pairwise_iff_getElem.mp hwf.disj) i j hi2 hj hij
      simpa [List.get_eq_getElem] using this
    have hpres := packPairs_preserves d.endianness (vs.zip d.fields)
      (List.replicate d.size 0) buf (d.fields.get ⟨j, hj⟩).offset
      (d.fields.get ⟨j, hj⟩).length hfit hlc hd hbuf
    rw [hpres.2]
    exact bufExtract_replicate d.size _ _ 0
      (hwf.fit (d.fields.get ⟨j, hj⟩) (List.get_mem d.fields j hj))
  · intro j hj hskip
    rw [packPairs_extract_skip d.endianness (vs.zip d.fields) (List.replicate d.size 0)
      buf hfit hlc hdisj hbuf j hj hskip]
    have hj2 : j < d.fields.length := lt_of_lt_of_le hj (zip_length_le_right vs d.fields)
    have hfit2 : ((vs.zip d.fields).get ⟨j, hj⟩).2.offset +
        ((vs.zip d.fields).get ⟨j, hj⟩).2.length ≤ d.size := by
      rw [zip_get_snd vs d.fields j hj hj2]
      exact hwf.fit _ (List.get_mem d.fields j hj2)
    exact bufExtract_replicate d.size _ _ 0 hfit2

/-- Claim C6: unpack fails with SizeMismatch exactly when the buffer length
differs from the descriptor's total size; the check runs before any field
is read, and an equal-length buffer never fails for size reasons. -/
theorem godotPack_c6_size_mismatch (s : String) (d : PackingDescriptor)
    (hseq : sequence_from s = .ok d) (data : List Nat) :
    unpack_impl d data = .err .sizeMismatch ↔ data.length ≠ d.size := by
  unfold unpack_impl
  split
  · rename_i hc
    exact ⟨fun _ => hc, fun _ => rfl⟩
  · rename_i hc
    constructor
    · intro h
      cases hres : unpackFields d.endianness data d.fields <;> rw [hres] at h <;>
        exact UnpackOutcome.noConfusion h
    · intro h
      exact absurd h hc

/-- Claim C7: every compiled descriptor's field offsets are the prefix sums
of the byte lengths of all preceding emissions, fields AND padding; the
total size is the sum of all emission lengths; field ranges are ordered and
non-overlapping; and padding emissions produce no field. -/
theorem godotPack_c7_layout (s : String) (d : PackingDescriptor)
    (hseq : sequence_from s = .ok d) :
    ∃ items, scanItems s = .ok items ∧
      d.fields = assignOffsets items 0 ∧
      d.size = totalLen items ∧
      d.fields.length = (items.filter isFieldItem).length ∧
      d.fields.Pairwise (fun a b => a.offset + a.length ≤ b.offset) ∧
      (∀ f ∈ d.fields, f.offset + f.length ≤ d.size) ∧
      (∀ f ∈ d.fields, 1 ≤ f.length) := by
  obtain ⟨items, h1, h2, h3⟩ := sequence_from_items s d hseq
  have hwf := sequence_from_WF s d hseq
  exact ⟨items, h1, h2, h3, by rw [h2, assignOffsets_length], hwf.disj, hwf.fit, hwf.pos⟩

/-- Claim C2: the compiled descriptor records exactly one byte order — the
last order directive appearing anywhere in the format (Native when none
appears) — and that single recorded order is the only one pack and unpack
consult, for every field including those parsed before the directive. -/
theorem godotPack_c2_single_order (s : String) (d : PackingDescriptor)
    (hseq : sequence_from s = .ok d) :
    d.endianness = lastOrderSpec s ∧
    (∀ vs, pack_impl d vs = pack_impl ⟨d.fields, d.size, lastOrderSpec s⟩ vs) ∧
    (∀ data, unpack_impl d data = unpack_impl ⟨d.fields, d.size, lastOrderSpec s⟩ data) := by
  have h1 : d.endianness = lastOrderSpec s := by
    unfold sequence_from at hseq
    cases hscan : scanAux s.data ⟨Endianness.NATIVE, [], 0, 0⟩ with
    | error e =>
      rw [hscan] at hseq
      exact absurd hseq (by simp)
    | ok st =>
      rw [hscan] at hseq
      injection hseq with hseq
      subst hseq
      exact scanAux_order s.data _ _ hscan
  refine ⟨h1, ?_, ?_⟩
  · intro vs
    rw [← h1]
  · intro data
    rw [← h1]

/-- Claim C8 counterexample: on a 20-digit declared length of 2^64 the
emitted Text field has byte length 1 (the wrapped accumulator, clamped),
not clamp(2^64, 1, 65535) = 65535 as the claim states. -/
theorem godotPack_c8_counterexample :
    sequence_from bigLenFormat =
      .ok ⟨[⟨.string, 1, 0⟩], 1, .littleEndian⟩ ∧
    clampLen 18446744073709551616 = 65535 ∧
    sequence_from bigLenFormat ≠
      .ok ⟨[⟨.string, 65535, 0⟩], 65535, .littleEndian⟩ := by
  refine ⟨by decide, by decide, by decide⟩

/-- Claim C8 amended: an 's' or 'x' token consumes the digits accumulated
since the last non-digit token, REDUCED MODULO 2^64 (the usize wrap), and
clamps that value to [1, 65535]: no digits or value 0 give length 1, values
above 65535 give 65535. -/
theorem godotPack_c8_amended (st : ScanState) (ds rest : List Char)
    (hds : ∀ c ∈ ds, c.isDigit = true) (hr : st.runningLength = 0) :
    scanAux (ds ++ 's' :: rest) st =
      scanAux rest ⟨st.order,
        st.fields ++ [⟨.string, clampLen (digitsVal ds % USIZE), st.offset⟩],
        0, st.offset + clampLen (digitsVal ds % USIZE)⟩ ∧
    scanAux (ds ++ 'x' :: rest) st =
      scanAux rest ⟨st.order, st.fields, 0,
        st.offset + clampLen (digitsVal ds % USIZE)⟩ := by
  have hpos : st.runningLength < USIZE := by
    rw [hr]
    unfold USIZE
    positivity
  have h1 := scanAux_digits ds ('s' :: rest) st hds hpos
  have h2 := scanAux_digits ds ('x' :: rest) st hds hpos
  rw [hr] at h1 h2
  constructor
  · rw [h1]
    rfl
  · rw [h2]
    rfl

/-- Claim C9: packing the integer 1 with format ">i" yields the buffer
00 00 00 01, and with "<i" yields 01 00 00 00. -/
theorem godotPack_c9_endianness :
    sequence_from ">i" = .ok descBigInt ∧
    pack_impl descBigInt [.vInt 1] = .ok [0x00, 0x00, 0x00, 0x01] ∧
    sequence_from "<i" = .ok descLitInt ∧
    pack_impl descLitInt [.vInt 1] = .ok [0x01, 0x00, 0x00, 0x00] := by
  refine ⟨by decide, by decide, by decide, by decide⟩

theorem charOfNat_toNat (b : Nat) (h : b < 55296) : (Char.ofNat b).toNat = b := by
  have hv : Nat.isValidChar b := Or.inl h
  simp [Char.ofNat, Char.ofNatAux, Char.toNat, hv, UInt32.toNat, BitVec.toNat_ofNatLt]

/-- Claim C10: reading a Character field from a matching-size buffer never
fails: it yields a one-character text value whose code point is the byte at
the field's offset; for bytes 128-255 that character's UTF-8 encoding is no
longer the original single byte. -/
theorem godotPack_c10_character (s : String) (d : PackingDescriptor)
    (hseq : sequence_from s = .ok d) (data : List Nat)
    (hlen : data.length = d.size) (hbytes : ∀ b ∈ data, b < 256)
    (j : Nat) (hj : j < d.fields.length)
    (hty : (d.fields.get ⟨j, hj⟩).ty = .character) :
    readField d.endianness data (d.fields.get ⟨j, hj⟩) =
      some (.vString (String.mk
        [Char.ofNat (data.getD (d.fields.get ⟨j, hj⟩).offset 0)])) ∧
    (Char.ofNat (data.getD (d.fields.get ⟨j, hj⟩).offset 0)).toNat =
      data.getD (d.fields.get ⟨j, hj⟩).offset 0 ∧
    (128 ≤ data.getD (d.fields.get ⟨j, hj⟩).offset 0 →
      stringUTF8 (String.mk
        [Char.ofNat (data.getD (d.fields.get ⟨j, hj⟩).offset 0)]) ≠
        [data.getD (d.fields.get ⟨j, hj⟩).offset 0]) := by
  have hwf := sequence_from_WF s d hseq
  have hmem := List.get_mem d.fields j hj
  have hfit := hwf.fit _ hmem
  have hpos := hwf.pos _ hmem
  have hoff : (d.fields.get ⟨j, hj⟩).offset < data.length := by omega
  have hbyte : data.getD (d.fields.get ⟨j, hj⟩).offset 0 < 256 := by
    rw [List.getD_eq_getElem data 0 hoff]
    exact hbytes _ (List.getElem_mem hoff)
  refine ⟨readField_character d.endianness data _ hty, ?_, ?_⟩
  · exact charOfNat_toNat _ (by omega)
  · intro h128
    have htn : (Char.ofNat (data.getD (d.fields.get ⟨j, hj⟩).offset 0)).toNat =
        data.getD (d.fields.get ⟨j, hj⟩).offset 0 := charOfNat_toNat _ (by omega)
    intro heq
    have hsu : stringUTF8 (String.mk
        [Char.ofNat (data.getD (d.fields.get ⟨j, hj⟩).offset 0)]) =
        utf8Bytes (Char.ofNat (data.getD (d.fields.get ⟨j, hj⟩).offset 0)).toNat := by
      show utf8Bytes _ ++ [] = _
      exact List.append_nil _
    rw [hsu, htn] at heq
    have hlt1 : ¬ data.getD (d.fields.get ⟨j, hj⟩).offset 0 < 0x80 := by omega
    have hlt2 : data.getD (d.fields.get ⟨j, hj⟩).offset 0 < 0x800 := by omega
    have hlen2 : (utf8Bytes (data.getD (d.fields.get ⟨j, hj⟩).offset 0)).length = 2 := by
      rw [utf8Bytes, if_neg hlt1, if_pos hlt2]
      rfl
    rw [heq] at hlen2
    exact absurd hlen2 (by simp)

/-- Claim C1 (code bug witness): on the descriptor of format "s" and the
size-matching buffer [0x80], whose single byte is not valid UTF-8, the
unpack loop PANICS (str::from_utf8(..).unwrap() in the String arm of
unpack_impl) instead of delivering the InvalidEncoding error value the spec
promises to the caller. -/
theorem godotPack_c1_invalid_utf8_panics :
    sequence_from "s" = .ok descTextOne ∧
    unpack_impl descTextOne [0x80] = .panicked ∧
    ∀ e, unpack_impl descTextOne [0x80] ≠ .err e := by
  refine ⟨by decide, by decide, ?_⟩
  intro e
  cases e
  decide

theorem godotPack_c2_witness :
    descTwoIntBE.endianness = lastOrderSpec "i>i" :=
  (godotPack_c2_single_order "i>i" descTwoIntBE (by decide)).1

theorem godotPack_c3_witness :
    ∃ buf, pack_impl descShortByte [.vInt (-2), .vInt 5] = .ok buf ∧
      unpack_impl descShortByte buf = .ok [.vInt (-2), .vInt 5] :=
  godotPack_c3_numeric_roundtrip ">hB" descShortByte [.vInt (-2), .vInt 5]
    (by decide) (by decide) (by decide) (by decide)

theorem godotPack_c4_witness :
    pack_impl descLitInt [.vString "abc"] = .error .writeConversionFailure :=
  godotPack_c4_conversion_failure descLitInt [.vString "abc"]
    ⟨0, by decide, .signed 4, by decide, by decide⟩

theorem godotPack_c5_witness :
    ∃ buf, pack_impl descBoolInt vsBoolOnly = .ok buf ∧
      (descBoolInt.fields.length ≤ vsBoolOnly.length →
        ∀ ws, pack_impl descBoolInt (vsBoolOnly ++ ws) = pack_impl descBoolInt vsBoolOnly) ∧
      (∀ (j : Nat) (hj : j < descBoolInt.fields.length), vsBoolOnly.length ≤ j →
        bufExtract buf (descBoolInt.fields.get ⟨j, hj⟩).offset
            (descBoolInt.fields.get ⟨j, hj⟩).length =
          List.replicate (descBoolInt.fields.get ⟨j, hj⟩).length 0) ∧
      (∀ (j : Nat) (hj : j < (vsBoolOnly.zip descBoolInt.fields).length),
        skipsWrite ((vsBoolOnly.zip descBoolInt.fields).get ⟨j, hj⟩) →
        bufExtract buf ((vsBoolOnly.zip descBoolInt.fields).get ⟨j, hj⟩).2.offset
            ((vsBoolOnly.zip descBoolInt.fields).get ⟨j, hj⟩).2.length =
          List.replicate ((vsBoolOnly.zip descBoolInt.fields).get ⟨j, hj⟩).2.length 0) :=
  godotPack_c5_permissive "?i" descBoolInt vsBoolOnly (by decide) (by
    intro j hj c hc
    have hj0 : j = 0 := Nat.lt_one_iff.mp hj
    subst hj0
    exact Option.noConfusion hc)

theorem godotPack_c6_witness :
    unpack_impl descLitInt [0, 0, 0] = .err .sizeMismatch :=
  (godotPack_c6_size_mismatch "<i" descLitInt (by decide) [0, 0, 0]).mpr (by decide)

theorem godotPack_c7_witness :
    ∃ items, scanItems "2xi" = .ok items ∧
      descPadInt.fields = assignOffsets items 0 ∧
      descPadInt.size = totalLen items ∧
      descPadInt.fields.length = (items.filter isFieldItem).length ∧
      descPadInt.fields.Pairwise (fun a b => a.offset + a.length ≤ b.offset) ∧
      (∀ f ∈ descPadInt.fields, f.offset + f.length ≤ descPadInt.size) ∧
      (∀ f ∈ descPadInt.fields, 1 ≤ f.length) :=
  godotPack_c7_layout "2xi" descPadInt (by decide)

theorem godotPack_c8_amended_witness :
    scanAux (['3', '0', '0'] ++ 's' :: []) ⟨.littleEndian, [], 0, 0⟩ =
      scanAux [] ⟨.littleEndian,
        [⟨.string, clampLen (digitsVal ['3', '0', '0'] % USIZE), 0⟩], 0,
        0 + clampLen (digitsVal ['3', '0', '0'] % USIZE)⟩ ∧
    scanAux (['3', '0', '0'] ++ 'x' :: []) ⟨.littleEndian, [], 0, 0⟩ =
      scanAux [] ⟨.littleEndian, [], 0,
        0 + clampLen (digitsVal ['3', '0', '0'] % USIZE)⟩ :=
  godotPack_c8_amended ⟨.littleEndian, [], 0, 0⟩ ['3', '0', '0'] [] (by decide) rfl

theorem godotPack_c10_witness :
    readField descChar.endianness [0xC3] (descChar.fields.get ⟨0, by decide⟩) =
      some (.vString (String.mk
        [Char.ofNat ([0xC3].getD (descChar.fields.get ⟨0, by decide⟩).offset 0)])) ∧
    (Char.ofNat ([0xC3].getD (descChar.fields.get ⟨0, by decide⟩).offset 0)).toNat =
      [0xC3].getD (descChar.fields.get ⟨0, by decide⟩).offset 0 ∧
    (128 ≤ [0xC3].getD (descChar.fields.get ⟨0, by decide⟩).offset 0 →
      stringUTF8 (String.mk
        [Char.ofNat ([0xC3].getD (descChar.fields.get ⟨0, by decide⟩).offset 0)]) ≠
        [[0xC3].getD (descChar.fields.get ⟨0, by decide⟩).offset 0]) :=
  godotPack_c10_character "c" descChar (by decide) [0xC3] (by decide) (by decide)
    0 (by decide) (by decide)
